import Mathlib

/-!
# Verification of the hurl script orchestrator (`runner/hurl_file.rs`, function `run`)

Shallow embedding of the orchestrator loop of `src/packages/hurl/src/runner/hurl_file.rs`.
The external collaborators (entry executor, policy resolver for client options, hooks)
are parameters; their hidden effects (network, interactive user) are modelled by an
explicit `World` state threaded through every external call.  The Rust `unwrap` panic
on line 160 is modelled by an `Option` result (`none` = panic).  Observable actions of
the loop (hook invocations, log calls, executor invocations, outcome recording,
fail-fast checks) are recorded in an event trace so that control-flow properties can be
stated about them.
-/

set_option maxHeartbeats 1000000

namespace Hurl

/-- Verbosity level carried by client options (external hurl type with two levels:
verbose and very verbose). -/
inductive Verbosity
  | verbose
  | veryVerbose
  deriving DecidableEq, Repr

/-- One scripted request/response step.  The AST content is external to the
orchestrator (it is only passed through to hooks, resolvers and the executor), so it
is abstracted to an identifier plus the one piece the verbosity resolver reads: an
optional per-entry verbosity override declared in the entry's options section. -/
structure Entry where
  eid : Nat
  verbosityOverride : Option (Option Verbosity)
  deriving DecidableEq, Repr

/-- Variable values; the orchestrator never inspects them. -/
abbrev Value := String

/-- The variable environment: a string-keyed map, modelled as an association list
with unique keys (mirroring the Rust `HashMap<String, Value>`). -/
abbrev Variables := List (String × Value)

/-- `HashMap::insert`: replace the binding of the key when present, otherwise add it. -/
def hashInsert (m : Variables) (k : String) (v : Value) : Variables :=
  if m.any (fun p => p.1 == k) then
    m.map (fun p => if p.1 == k then (k, v) else p)
  else
    m ++ [(k, v)]

/-- Hidden state of the external collaborators (network, interactive user, clock):
the impure callbacks and the entry executor read and advance it. -/
abbrev World := Nat

/-- One execution outcome produced by the entry executor (`EntryResult`): the
orchestrator reads only its error list; the remaining payload (response data,
captures, timings) is abstracted into a natural number. -/
structure EntryResult where
  errors : List String
  payload : Nat
  deriving DecidableEq, Repr

/-- The CLI logger: constructor arguments of `Logger::new(color, verbose, filename,
content)`, all four read back by the orchestrator when building per-entry loggers. -/
structure Logger where
  color : Bool
  verbose : Bool
  filename : String
  content : String
  deriving DecidableEq, Repr

/-- `Logger::new`. -/
def Logger.new (color verbose : Bool) (filename content : String) : Logger :=
  ⟨color, verbose, filename, content⟩

/-- Baseline network/client configuration; the orchestrator reads only its verbosity,
the rest is abstracted. -/
structure ClientOptions where
  verbosity : Option Verbosity
  opts : Nat
  deriving DecidableEq, Repr

/-- The HTTP client session: cookie storage (read once at run end via
`get_cookie_storage`) plus abstract connection state mutated by the executor. -/
structure Client where
  cookies : List String
  session : Nat
  deriving DecidableEq, Repr

/-- `RunnerOptions`: per-run configuration.  The hooks are impure Rust function
pointers (`Option<fn(Entry) -> bool>` and `Option<fn() -> bool>`); their hidden
state is made explicit by threading `World`. -/
structure RunnerOptions where
  fail_fast : Bool
  varMap : Variables
  to_entry : Option Nat
  context_dir : String
  ignore_asserts : Bool
  very_verbose : Bool
  pre_entry : Option (Entry → World → Bool × World)
  post_entry : Option (World → Bool × World)

/-- The entry executor `entry::run` (external collaborator): given one entry, the
client, the variable environment, the run options, the per-entry client options and
the scoped logger, it performs the network step(s) and returns the ordered outcome
sequence together with the mutated environment, client and world. -/
abbrev Executor :=
  Entry → Client → Variables → RunnerOptions → ClientOptions → Logger → World →
    List EntryResult × Variables × Client × World

/-- The policy resolver `entry::get_entry_options` (external collaborator): derives
this entry's effective client options from the baseline options. -/
abbrev OptionsResolver := Entry → ClientOptions → Logger → ClientOptions

/-- A parsed script: the ordered entry list of a `HurlFile`. -/
structure HurlFile where
  entries : List Entry

/-- The aggregate run result (`HurlResult`).  Wall-clock timing is external
(`Instant::now`), not modelled: `time_in_ms` is always 0 here. -/
structure HurlResult where
  filename : String
  entries : List EntryResult
  time_in_ms : Nat
  success : Bool
  cookies : List String
  deriving DecidableEq, Repr

/-- Modelled from the spec: the Entry Policy Resolver's verbosity resolution
(`get_entry_verbosity` in `runner/entry.rs`, which is not part of the provided
source).  Per the spec it yields the entry's declared verbosity override when the
entry has one and defaults to the run's base verbosity when the entry specifies no
override. -/
def get_entry_verbosity (entry : Entry) (base : Option Verbosity) : Option Verbosity :=
  match entry.verbosityOverride with
  | some v => v
  | none => base

/-- Lines 122-128 of `hurl_file.rs`: the logger scoped to one entry, built from the
ambient logger's color/filename/content and the resolved per-entry verbosity. -/
def scopedLogger (logger : Logger) (entry : Entry) (client_options : ClientOptions) :
    Logger :=
  Logger.new logger.color (get_entry_verbosity entry client_options.verbosity).isSome
    logger.filename logger.content

/-- The debug separator line printed before each entry. -/
def separatorLine : String :=
  "------------------------------------------------------------------------------"

/-- The per-entry debug marker, with 1-based display index. -/
def execMsg (entry_index : Nat) : String :=
  "Executing entry " ++ toString (entry_index + 1)

/-- Observable actions of the orchestrator loop, recorded as an instrumentation
trace in the order they happen. -/
inductive Event
  | preHookCall (entry : Entry) (stop : Bool)
  | logDebug (lg : Logger) (msg : String)
  | optionsResolved (entry : Entry) (entryOpts : ClientOptions)
  | execCall (idx : Nat) (entry : Entry) (varsIn : Variables)
      (results : List EntryResult) (varsOut : Variables)
  | logErrorRich (lg : Logger) (err : String)
  | outcomeRecorded (r : EntryResult)
  | postHookCall (stop : Bool)
  | failFastChecked (lastResult : EntryResult) (triggered : Bool)
  deriving DecidableEq, Repr

/-- Lines 146-151 of `hurl_file.rs`: for each outcome of the entry, in order, report
each of its errors through the scoped logger, then record the outcome. -/
def recordEvents (lg : Logger) (rs : List EntryResult) : List Event :=
  (rs.map (fun r => r.errors.map (Event.logErrorRich lg) ++ [Event.outcomeRecorded r])).flatten

/-- Lines 112-117: invoke the optional pre-entry hook with the entry. -/
def runPreHook (ro : RunnerOptions) (entry : Entry) (w : World) : Bool × World :=
  match ro.pre_entry with
  | some f => f entry w
  | none => (false, w)

/-- Lines 153-158: invoke the optional post-entry hook. -/
def runPostHook (ro : RunnerOptions) (w : World) : Bool × World :=
  match ro.post_entry with
  | some f => f w
  | none => (false, w)

/-- The trace of one full (non-pre-stopped) iteration up to and including the
recording loop: pre-hook answered continue, the two debug lines through the scoped
logger, client-options resolution, the executor call, then error reporting and
outcome recording. -/
def iterEvents (elog : Logger) (idx : Nat) (entry : Entry) (entryOpts : ClientOptions)
    (varsIn : Variables) (rs : List EntryResult) (varsOut : Variables) : List Event :=
  Event.preHookCall entry false ::
    Event.logDebug elog separatorLine ::
      Event.logDebug elog (execMsg idx) ::
        Event.optionsResolved entry entryOpts ::
          Event.execCall idx entry varsIn rs varsOut :: recordEvents elog rs

/-- The `for (entry_index, entry) in ... take(n).enumerate()` loop of `run`
(lines 106-163 of `hurl_file.rs`), in pure state-passing form.  The returned
outcome list and event trace are the ones this loop produces (the caller's
accumulators are extended by list append).  `none` models the Rust panic of
`entry_results.last().unwrap()` on an empty outcome sequence. -/
def runEntries (exec : Executor) (getEntryOptions : OptionsResolver)
    (ro : RunnerOptions) (co : ClientOptions) (lg : Logger) :
    List (Nat × Entry) → Client → Variables → World →
      Option (List EntryResult × Variables × Client × World × List Event)
  | [], client, vars, w => some ([], vars, client, w, [])
  | (idx, entry) :: rest, client, vars, w =>
    let pre := runPreHook ro entry w
    if pre.1 then
      some ([], vars, client, pre.2, [Event.preHookCall entry true])
    else
      let elog := scopedLogger lg entry co
      let entryOpts := getEntryOptions entry co elog
      let step := exec entry client vars ro entryOpts elog pre.2
      let rs := step.1
      let vars2 := step.2.1
      let client2 := step.2.2.1
      let w2 := step.2.2.2
      let iterTr := iterEvents elog idx entry entryOpts vars rs vars2
      let post := runPostHook ro w2
      if post.1 then
        some (rs, vars2, client2, post.2, iterTr ++ [Event.postHookCall true])
      else if ro.fail_fast then
        match rs.getLast? with
        | none => none
        | some lastR =>
          if lastR.errors.isEmpty then
            match runEntries exec getEntryOptions ro co lg rest client2 vars2 post.2 with
            | none => none
            | some (accR, varsR, clientR, wR, trR) =>
              some (rs ++ accR, varsR, clientR, wR,
                iterTr ++ Event.postHookCall false ::
                  Event.failFastChecked lastR false :: trR)
          else
            some (rs, vars2, client2, post.2,
              iterTr ++ [Event.postHookCall false, Event.failFastChecked lastR true])
      else
        match runEntries exec getEntryOptions ro co lg rest client2 vars2 post.2 with
        | none => none
        | some (accR, varsR, clientR, wR, trR) =>
          some (rs ++ accR, varsR, clientR, wR,
            iterTr ++ Event.postHookCall false :: trR)

/-- Lines 92-96: seed a fresh variable environment by inserting every (key, value)
pair of `runner_options.variables` into an empty map.  (The Rust field
`variables` is spelled `varMap` here because the name is reserved in Lean.) -/
def copyVariables (vs : Variables) : Variables :=
  vs.foldl (fun m kv => hashInsert m kv.1 kv.2) []

/-- The orchestrator `run` of `hurl_file.rs`: copy the initial variables, bound the
entry count by `to_entry` (or the script length), drive the entry loop, then build
the `HurlResult` with the overall success flag (first element of the flattened error
iterator is none) and the client's cookie snapshot.  Returns the result together
with the final client, the final world and the event trace; `none` models a panic. -/
def run (exec : Executor) (getEntryOptions : OptionsResolver) (hurl_file : HurlFile)
    (filename : String) (http_client : Client) (runner_options : RunnerOptions)
    (client_options : ClientOptions) (logger : Logger) (w : World) :
    Option (HurlResult × Client × World × List Event) :=
  let vars := copyVariables runner_options.varMap
  let n := match runner_options.to_entry with
    | some to_entry => to_entry
    | none => hurl_file.entries.length
  match runEntries exec getEntryOptions runner_options client_options logger
      ((hurl_file.entries.take n).enum) http_client vars w with
  | none => none
  | some (entries, _vars, client2, w2, tr) =>
    let success := ((entries.map EntryResult.errors).flatten).head?.isNone
    some (⟨filename, entries, 0, success, client2.cookies⟩, client2, w2, tr)

/-- The executor-invocation records of a trace, in trace order. -/
structure ExecInfo where
  idx : Nat
  entry : Entry
  varsIn : Variables
  results : List EntryResult
  varsOut : Variables
  deriving DecidableEq, Repr

/-- Extract the executor invocations of a trace. -/
def execEvents : List Event → List ExecInfo
  | [] => []
  | Event.execCall i e vi rs vo :: tr => ⟨i, e, vi, rs, vo⟩ :: execEvents tr
  | _ :: tr => execEvents tr

/-- Events that terminate the loop: a pre- or post-hook stop, or a triggered
fail-fast check. -/
def isStop : Event → Bool
  | Event.preHookCall _ stop => stop
  | Event.postHookCall stop => stop
  | Event.failFastChecked _ triggered => triggered
  | _ => false

/-- Is the event an executor invocation? -/
def isExec : Event → Bool
  | Event.execCall _ _ _ _ _ => true
  | _ => false

end Hurl

/-! ## Trace predicates -/

namespace Hurl

/-- Every loop-terminating event (hook stop, triggered fail-fast) is the last event
of the trace: nothing is observed after a stop. -/
def StopsTerminal (tr : List Event) : Prop :=
  ∀ tr₁ ev tr₂, tr = tr₁ ++ ev :: tr₂ → isStop ev = true → tr₂ = []

/-- Every executor invocation in the trace is immediately followed by the
error-reporting/outcome-recording events for its whole outcome sequence, through
the scoped logger of its entry. -/
def ExecFollowed (co : ClientOptions) (lg : Logger) (tr : List Event) : Prop :=
  ∀ tr₁ i e vi rs vo tr₂,
    tr = tr₁ ++ Event.execCall i e vi rs vo :: tr₂ →
      ∃ rest, tr₂ = recordEvents (scopedLogger lg e co) rs ++ rest

/-- Every fail-fast check in the trace inspected exactly the last outcome of the
most recent executor invocation, and triggered exactly when that outcome carries
an error. -/
def FailFastHonest (tr : List Event) : Prop :=
  ∀ tr₁ r t tr₂, tr = tr₁ ++ Event.failFastChecked r t :: tr₂ →
    t = !r.errors.isEmpty ∧
      ∃ info, (execEvents tr₁).getLast? = some info ∧ info.results.getLast? = some r

/-! ### Concrete fixtures used to instantiate the theorems -/

/-- A first entry with no verbosity override. -/
def wEntry0 : Entry := ⟨0, none⟩

/-- A second entry with no verbosity override. -/
def wEntry1 : Entry := ⟨1, none⟩

/-- A two-entry script. -/
def wHf : HurlFile := ⟨[wEntry0, wEntry1]⟩

/-- An empty script. -/
def wHfEmpty : HurlFile := ⟨[]⟩

/-- An options resolver that applies no per-entry override. -/
def wRes : OptionsResolver := fun _ co _ => co

def wCo : ClientOptions := ⟨none, 0⟩

def wLg : Logger := ⟨false, false, "f", "c"⟩

def wCl : Client := ⟨["ck"], 7⟩

/-- A successful executor: entry 0 captures a variable, both entries return one
clean outcome. -/
def wExec : Executor := fun e c v _ _ _ w =>
  if e.eid == 0 then ([⟨[], 10⟩], hashInsert v "token" "t", c, w + 1)
  else ([⟨[], 20⟩], v, c, w + 1)

/-- An executor whose first entry returns a single errored outcome. -/
def wExecErr : Executor := fun e c v _ _ _ w =>
  if e.eid == 0 then ([⟨["boom"], 0⟩], v, c, w) else ([⟨[], 20⟩], v, c, w)

/-- An executor that violates the interface precondition: it returns no outcome. -/
def wExecEmpty : Executor := fun _ c v _ _ _ w => ([], v, c, w)

def wRo : RunnerOptions := ⟨false, [("a", "1")], none, "", false, false, none, none⟩

def wRoFF : RunnerOptions := ⟨true, [], none, "", false, false, none, none⟩

def wRoTo1 : RunnerOptions := ⟨false, [], some 1, "", false, false, none, none⟩

/-- Runner options whose pre-entry hook always asks to stop. -/
def wRoPre : RunnerOptions :=
  ⟨false, [], none, "", false, false, some (fun _ w => (true, w)), none⟩

/-- Runner options whose post-entry hook always asks to stop. -/
def wRoPost : RunnerOptions :=
  ⟨false, [], none, "", false, false, none, some (fun w => (true, w))⟩

/-- Run result of the empty-script fixture run. -/
def wEhr : HurlResult := ⟨"f", [], 0, true, ["ck"]⟩

/-- Run result of the plain two-entry fixture run. -/
def w1hr : HurlResult := ⟨"f", [⟨[], 10⟩, ⟨[], 20⟩], 0, true, ["ck"]⟩

/-- Event trace of the plain two-entry fixture run. -/
def w1tr : List Event :=
  [Event.preHookCall wEntry0 false,
   Event.logDebug wLg separatorLine,
   Event.logDebug wLg (execMsg 0),
   Event.optionsResolved wEntry0 wCo,
   Event.execCall 0 wEntry0 [("a", "1")] [⟨[], 10⟩] [("a", "1"), ("token", "t")],
   Event.outcomeRecorded ⟨[], 10⟩,
   Event.postHookCall false,
   Event.preHookCall wEntry1 false,
   Event.logDebug wLg separatorLine,
   Event.logDebug wLg (execMsg 1),
   Event.optionsResolved wEntry1 wCo,
   Event.execCall 1 wEntry1 [("a", "1"), ("token", "t")] [⟨[], 20⟩]
     [("a", "1"), ("token", "t")],
   Event.outcomeRecorded ⟨[], 20⟩,
   Event.postHookCall false]

/-- Run result of the fixture run bounded by toEntry = 1. -/
def w2hr : HurlResult := ⟨"f", [⟨[], 10⟩], 0, true, ["ck"]⟩

/-- Event trace of the fixture run bounded by toEntry = 1. -/
def w2tr : List Event :=
  [Event.preHookCall wEntry0 false,
   Event.logDebug wLg separatorLine,
   Event.logDebug wLg (execMsg 0),
   Event.optionsResolved wEntry0 wCo,
   Event.execCall 0 wEntry0 [] [⟨[], 10⟩] [("token", "t")],
   Event.outcomeRecorded ⟨[], 10⟩,
   Event.postHookCall false]

/-- Run result of the fixture run whose pre-entry hook stops at once. -/
def w3hr : HurlResult := ⟨"f", [], 0, true, ["ck"]⟩

/-- Event trace of the fixture run whose pre-entry hook stops at once. -/
def w3tr : List Event := [Event.preHookCall wEntry0 true]

/-- Run result of the fixture run whose post-entry hook stops after entry 0. -/
def w4hr : HurlResult := ⟨"f", [⟨[], 10⟩], 0, true, ["ck"]⟩

/-- Event trace of the fixture run whose post-entry hook stops after entry 0. -/
def w4tr : List Event :=
  [Event.preHookCall wEntry0 false,
   Event.logDebug wLg separatorLine,
   Event.logDebug wLg (execMsg 0),
   Event.optionsResolved wEntry0 wCo,
   Event.execCall 0 wEntry0 [] [⟨[], 10⟩] [("token", "t")],
   Event.outcomeRecorded ⟨[], 10⟩,
   Event.postHookCall true]

/-- The prefix of w4tr before its stopping post-hook call. -/
def w4tr1 : List Event :=
  [Event.preHookCall wEntry0 false,
   Event.logDebug wLg separatorLine,
   Event.logDebug wLg (execMsg 0),
   Event.optionsResolved wEntry0 wCo,
   Event.execCall 0 wEntry0 [] [⟨[], 10⟩] [("token", "t")],
   Event.outcomeRecorded ⟨[], 10⟩]

/-- Run result of the fail-fast fixture run whose first entry errors. -/
def w5hr : HurlResult := ⟨"f", [⟨["boom"], 0⟩], 0, false, ["ck"]⟩

/-- Event trace of the fail-fast fixture run whose first entry errors. -/
def w5tr : List Event :=
  [Event.preHookCall wEntry0 false,
   Event.logDebug wLg separatorLine,
   Event.logDebug wLg (execMsg 0),
   Event.optionsResolved wEntry0 wCo,
   Event.execCall 0 wEntry0 [] [⟨["boom"], 0⟩] [],
   Event.logErrorRich wLg "boom",
   Event.outcomeRecorded ⟨["boom"], 0⟩,
   Event.postHookCall false,
   Event.failFastChecked ⟨["boom"], 0⟩ true]

/-- The prefix of w5tr before its triggered fail-fast check. -/
def w5tr1 : List Event :=
  [Event.preHookCall wEntry0 false,
   Event.logDebug wLg separatorLine,
   Event.logDebug wLg (execMsg 0),
   Event.optionsResolved wEntry0 wCo,
   Event.execCall 0 wEntry0 [] [⟨["boom"], 0⟩] [],
   Event.logErrorRich wLg "boom",
   Event.outcomeRecorded ⟨["boom"], 0⟩,
   Event.postHookCall false]

/-- The prefix of w5tr before its executor invocation. -/
def w9tr1 : List Event :=
  [Event.preHookCall wEntry0 false,
   Event.logDebug wLg separatorLine,
   Event.logDebug wLg (execMsg 0),
   Event.optionsResolved wEntry0 wCo]

/-- The suffix of w5tr after its executor invocation. -/
def w9tr2 : List Event :=
  [Event.logErrorRich wLg "boom",
   Event.outcomeRecorded ⟨["boom"], 0⟩,
   Event.postHookCall false,
   Event.failFastChecked ⟨["boom"], 0⟩ true]

end Hurl

/-! ## Basic trace lemmas -/

namespace Hurl

theorem execEvents_append (a b : List Event) :
    execEvents (a ++ b) = execEvents a ++ execEvents b := by
  induction a with
  | nil => rfl
  | cons x a ih => cases x <;> simp [execEvents, ih]

theorem execEvents_eq_nil (tr : List Event) (h : ∀ ev ∈ tr, isExec ev = false) :
    execEvents tr = [] := by
  induction tr with
  | nil => rfl
  | cons x tr ih =>
    cases x <;> simp_all [execEvents, isExec]

theorem recordEvents_not_exec (lg : Logger) (rs : List EntryResult) :
    ∀ ev ∈ recordEvents lg rs, isExec ev = false := by
  intro ev hev
  simp only [recordEvents, List.mem_flatten, List.mem_map] at hev
  obtain ⟨l, ⟨r, _, rfl⟩, hl⟩ := hev
  rcases List.mem_append.1 hl with h | h
  · obtain ⟨er, _, rfl⟩ := List.mem_map.1 h
    rfl
  · simp at h; subst h; rfl

theorem recordEvents_not_stop (lg : Logger) (rs : List EntryResult) :
    ∀ ev ∈ recordEvents lg rs, isStop ev = false := by
  intro ev hev
  simp only [recordEvents, List.mem_flatten, List.mem_map] at hev
  obtain ⟨l, ⟨r, _, rfl⟩, hl⟩ := hev
  rcases List.mem_append.1 hl with h | h
  · obtain ⟨er, _, rfl⟩ := List.mem_map.1 h
    rfl
  · simp at h; subst h; rfl

theorem execEvents_recordEvents (lg : Logger) (rs : List EntryResult) :
    execEvents (recordEvents lg rs) = [] :=
  execEvents_eq_nil _ (recordEvents_not_exec lg rs)

theorem execEvents_iter_append (elog : Logger) (idx : Nat) (entry : Entry)
    (entryOpts : ClientOptions) (vi : Variables) (rs : List EntryResult)
    (vo : Variables) (tl : List Event) :
    execEvents (iterEvents elog idx entry entryOpts vi rs vo ++ tl) =
      ⟨idx, entry, vi, rs, vo⟩ :: execEvents tl := by
  simp [iterEvents, execEvents, List.append_assoc, execEvents_append,
    execEvents_recordEvents]

theorem iterEvents_not_stop (elog : Logger) (idx : Nat) (entry : Entry)
    (entryOpts : ClientOptions) (vi : Variables) (rs : List EntryResult)
    (vo : Variables) : ∀ ev ∈ iterEvents elog idx entry entryOpts vi rs vo,
      isStop ev = false := by
  intro ev hev
  simp only [iterEvents, List.mem_cons] at hev
  rcases hev with rfl | rfl | rfl | rfl | rfl | h
  · rfl
  · rfl
  · rfl
  · rfl
  · rfl
  · exact recordEvents_not_stop elog rs ev h

end Hurl

/-! ## Closure lemmas for the trace predicates -/

namespace Hurl

theorem stopsTerminal_nil : StopsTerminal [] := by
  intro tr₁ ev tr₂ h
  simp at h

theorem stopsTerminal_single (ev : Event) : StopsTerminal [ev] := by
  intro tr₁ ev' tr₂ h _
  rcases tr₁ with _ | ⟨x, tr₁⟩
  · simp only [List.nil_append, List.cons.injEq] at h
    exact h.2.symm
  · simp only [List.cons_append, List.cons.injEq] at h
    exact absurd h.2 (by simp)

theorem stopsTerminal_cons (x : Event) (tr : List Event) (hx : isStop x = false)
    (h : StopsTerminal tr) : StopsTerminal (x :: tr) := by
  intro tr₁ ev tr₂ hsplit hstop
  rcases tr₁ with _ | ⟨y, tr₁⟩
  · simp at hsplit
    rw [← hsplit.1] at hstop
    rw [hx] at hstop
    cases hstop
  · simp at hsplit
    exact h tr₁ ev tr₂ hsplit.2 hstop

theorem stopsTerminal_append (l tr : List Event) (hl : ∀ ev ∈ l, isStop ev = false)
    (h : StopsTerminal tr) : StopsTerminal (l ++ tr) := by
  induction l with
  | nil => simpa using h
  | cons x l ih =>
    simp only [List.cons_append]
    exact stopsTerminal_cons _ _ (hl x (by simp))
      (ih (fun ev hev => hl ev (by simp [hev])))

theorem execFollowed_nil (co : ClientOptions) (lg : Logger) : ExecFollowed co lg [] := by
  intro tr₁ i e vi rs vo tr₂ h
  simp at h

theorem execFollowed_cons (co : ClientOptions) (lg : Logger) (x : Event)
    (tr : List Event) (hx : isExec x = false) (h : ExecFollowed co lg tr) :
    ExecFollowed co lg (x :: tr) := by
  intro tr₁ i e vi rs vo tr₂ hsplit
  rcases tr₁ with _ | ⟨y, tr₁⟩
  · simp at hsplit
    rw [hsplit.1] at hx
    simp [isExec] at hx
  · simp at hsplit
    exact h tr₁ i e vi rs vo tr₂ hsplit.2

theorem execFollowed_append (co : ClientOptions) (lg : Logger) (l tr : List Event)
    (hl : ∀ ev ∈ l, isExec ev = false) (h : ExecFollowed co lg tr) :
    ExecFollowed co lg (l ++ tr) := by
  induction l with
  | nil => simpa using h
  | cons x l ih =>
    simp only [List.cons_append]
    exact execFollowed_cons co lg _ _ (hl x (by simp))
      (ih (fun ev hev => hl ev (by simp [hev])))

theorem execFollowed_cons_exec (co : ClientOptions) (lg : Logger) (i : Nat)
    (e : Entry) (vi : Variables) (rs : List EntryResult) (vo : Variables)
    (tl : List Event)
    (h : ExecFollowed co lg (recordEvents (scopedLogger lg e co) rs ++ tl)) :
    ExecFollowed co lg
      (Event.execCall i e vi rs vo :: (recordEvents (scopedLogger lg e co) rs ++ tl)) := by
  intro tr₁ i' e' vi' rs' vo' tr₂ hsplit
  rcases tr₁ with _ | ⟨y, tr₁⟩
  · simp only [List.nil_append, List.cons.injEq, Event.execCall.injEq] at hsplit
    obtain ⟨⟨h1, h2, h3, h4, h5⟩, htl⟩ := hsplit
    subst h2
    subst h4
    exact ⟨tl, htl.symm⟩
  · simp only [List.cons_append, List.cons.injEq] at hsplit
    exact h tr₁ i' e' vi' rs' vo' tr₂ hsplit.2

/-- If an element occurs in a concatenation at a position, and the first part
contains no element satisfying the discriminating property of that element, the
occurrence lies in the second part. -/
theorem split_in_second {α} (P : α → Prop) (l₁ l₂ tr₁ tr₂ : List α) (x : α)
    (h : l₁ ++ l₂ = tr₁ ++ x :: tr₂) (hx : P x) (hl : ∀ y ∈ l₁, ¬ P y) :
    ∃ tr₁', tr₁ = l₁ ++ tr₁' ∧ l₂ = tr₁' ++ x :: tr₂ := by
  induction l₁ generalizing tr₁ with
  | nil => exact ⟨tr₁, rfl, by simpa using h⟩
  | cons a l₁ ih =>
    rcases tr₁ with _ | ⟨b, tr₁⟩
    · simp only [List.nil_append, List.cons_append] at h
      injection h with h1 h2
      exact absurd (show P a by rw [h1]; exact hx) (hl a (by simp))
    · simp only [List.cons_append] at h
      injection h with h1 h2
      obtain ⟨tr₁', hA, hB⟩ := ih tr₁ h2 (fun y hy => hl y (List.mem_cons_of_mem _ hy))
      exact ⟨tr₁', by simp [hA, h1], hB⟩

end Hurl

/-! ## Characterization of one loop iteration -/

namespace Hurl

theorem runEntries_nil_eq (exec : Executor) (g : OptionsResolver) (ro : RunnerOptions)
    (co : ClientOptions) (lg : Logger) (c : Client) (v : Variables) (w : World) :
    runEntries exec g ro co lg [] c v w = some ([], v, c, w, []) := rfl

/-- Every successful iteration of the loop on a non-empty entry list falls into one
of five shapes: pre-hook stop, post-hook stop, fail-fast stop, continuation with a
negative fail-fast check, or continuation without fail-fast. -/
theorem runEntries_cons_cases (exec : Executor) (g : OptionsResolver)
    (ro : RunnerOptions) (co : ClientOptions) (lg : Logger) (idx : Nat) (e : Entry)
    (rest : List (Nat × Entry)) (c : Client) (v : Variables) (w : World)
    (out : List EntryResult × Variables × Client × World × List Event)
    (h : runEntries exec g ro co lg ((idx, e) :: rest) c v w = some out) :
    ((runPreHook ro e w).1 = true ∧
      out = ([], v, c, (runPreHook ro e w).2, [Event.preHookCall e true])) ∨
    (∃ rs v2 c2 w2,
      (runPreHook ro e w).1 = false ∧
      exec e c v ro (g e co (scopedLogger lg e co)) (scopedLogger lg e co)
          (runPreHook ro e w).2 = (rs, v2, c2, w2) ∧
      (((runPostHook ro w2).1 = true ∧
        out = (rs, v2, c2, (runPostHook ro w2).2,
          iterEvents (scopedLogger lg e co) idx e (g e co (scopedLogger lg e co)) v rs v2
            ++ [Event.postHookCall true])) ∨
       ((runPostHook ro w2).1 = false ∧
        ((∃ lastR, ro.fail_fast = true ∧ rs.getLast? = some lastR ∧
           lastR.errors.isEmpty = false ∧
           out = (rs, v2, c2, (runPostHook ro w2).2,
             iterEvents (scopedLogger lg e co) idx e (g e co (scopedLogger lg e co)) v rs v2
               ++ [Event.postHookCall false, Event.failFastChecked lastR true])) ∨
         (∃ accR vR cR wR trR,
           runEntries exec g ro co lg rest c2 v2 (runPostHook ro w2).2 =
             some (accR, vR, cR, wR, trR) ∧
           ((ro.fail_fast = false ∧
             out = (rs ++ accR, vR, cR, wR,
               iterEvents (scopedLogger lg e co) idx e (g e co (scopedLogger lg e co)) v rs v2
                 ++ Event.postHookCall false :: trR)) ∨
            (∃ lastR, ro.fail_fast = true ∧ rs.getLast? = some lastR ∧
              lastR.errors.isEmpty = true ∧
              out = (rs ++ accR, vR, cR, wR,
                iterEvents (scopedLogger lg e co) idx e (g e co (scopedLogger lg e co)) v rs v2
                  ++ Event.postHookCall false :: Event.failFastChecked lastR false :: trR)))))))) := by
  simp only [runEntries] at h
  split at h
  · -- pre-hook stop
    rename_i hpre
    left
    injection h with h'
    exact ⟨hpre, h'.symm⟩
  · rename_i hpre
    right
    refine ⟨_, _, _, _, Bool.not_eq_true _ ▸ hpre, rfl, ?_⟩
    split at h
    · -- post-hook stop
      rename_i hpost
      left
      injection h with h'
      exact ⟨hpost, h'.symm⟩
    · rename_i hpost
      right
      refine ⟨Bool.not_eq_true _ ▸ hpost, ?_⟩
      split at h
      · -- fail_fast = true
        rename_i hff
        split at h
        · -- getLast? = none : panic, contradicts h
          cases h
        · rename_i lastR hlast
          split at h
          · -- last outcome clean: continue
            rename_i hclean
            right
            split at h
            · cases h
            · rename_i accR vR cR wR trR hrec
              injection h with h'
              exact ⟨accR, vR, cR, wR, trR, hrec, Or.inr
                ⟨lastR, hff, hlast, by simpa using hclean, h'.symm⟩⟩
          · -- last outcome errored: fail-fast stop
            rename_i hdirty
            left
            injection h with h'
            exact ⟨lastR, hff, hlast, by simpa using hdirty, h'.symm⟩
      · -- fail_fast = false: continue
        rename_i hff
        right
        split at h
        · cases h
        · rename_i accR vR cR wR trR hrec
          injection h with h'
          exact ⟨accR, vR, cR, wR, trR, hrec, Or.inl
            ⟨Bool.not_eq_true _ ▸ hff, h'.symm⟩⟩

end Hurl

/-! ## Shape of the per-iteration events -/

namespace Hurl

theorem recordEvents_shape (lg : Logger) (rs : List EntryResult) :
    ∀ ev ∈ recordEvents lg rs,
      (∃ er, ev = Event.logErrorRich lg er) ∨ (∃ r, ev = Event.outcomeRecorded r) := by
  intro ev hev
  simp only [recordEvents, List.mem_flatten, List.mem_map] at hev
  obtain ⟨l, ⟨r, _, rfl⟩, hl⟩ := hev
  rcases List.mem_append.1 hl with h | h
  · obtain ⟨er, _, rfl⟩ := List.mem_map.1 h
    exact Or.inl ⟨er, rfl⟩
  · simp at h
    subst h
    exact Or.inr ⟨r, rfl⟩

theorem iterEvents_mem (elog : Logger) (idx : Nat) (e : Entry) (opts : ClientOptions)
    (vi : Variables) (rs : List EntryResult) (vo : Variables) :
    ∀ ev ∈ iterEvents elog idx e opts vi rs vo,
      ev = Event.preHookCall e false ∨ ev = Event.logDebug elog separatorLine ∨
      ev = Event.logDebug elog (execMsg idx) ∨ ev = Event.optionsResolved e opts ∨
      ev = Event.execCall idx e vi rs vo ∨ ev ∈ recordEvents elog rs := by
  intro ev hev
  simp only [iterEvents, List.mem_cons] at hev
  tauto

theorem iterEvents_no_ffc (elog : Logger) (idx : Nat) (e : Entry)
    (opts : ClientOptions) (vi : Variables) (rs : List EntryResult) (vo : Variables)
    (r : EntryResult) (t : Bool) :
    Event.failFastChecked r t ∉ iterEvents elog idx e opts vi rs vo := by
  intro hev
  rcases iterEvents_mem elog idx e opts vi rs vo _ hev with h | h | h | h | h | h
  any_goals cases h
  rcases recordEvents_shape elog rs _ h with ⟨er, h'⟩ | ⟨r', h'⟩ <;> cases h'

theorem iterEvents_not_exec_prefix (elog : Logger) (e : Entry) (idx : Nat)
    (opts : ClientOptions) :
    ∀ ev ∈ [Event.preHookCall e false, Event.logDebug elog separatorLine,
      Event.logDebug elog (execMsg idx), Event.optionsResolved e opts],
        isExec ev = false := by
  intro ev hev
  simp only [List.mem_cons] at hev
  rcases hev with rfl | rfl | rfl | rfl | h
  · rfl
  · rfl
  · rfl
  · rfl
  · simp at h

end Hurl

/-! ## Invariants of the loop, by induction over the entry list -/

namespace Hurl

/-- The accumulated outcome list is exactly the concatenation, in invocation order,
of the outcome sequences the executor returned. -/
theorem runEntries_results (exec : Executor) (g : OptionsResolver) (ro : RunnerOptions)
    (co : ClientOptions) (lg : Logger) (l : List (Nat × Entry)) :
    ∀ c v w acc v' c' w' tr,
      runEntries exec g ro co lg l c v w = some (acc, v', c', w', tr) →
        acc = ((execEvents tr).map ExecInfo.results).flatten := by
  induction l with
  | nil =>
    intro c v w acc v' c' w' tr h
    rw [runEntries_nil_eq] at h
    simp only [Option.some.injEq, Prod.mk.injEq] at h
    obtain ⟨rfl, rfl, rfl, rfl, rfl⟩ := h
    simp [execEvents]
  | cons p rest ih =>
    obtain ⟨idx, e⟩ := p
    intro c v w acc v' c' w' tr h
    rcases runEntries_cons_cases _ _ _ _ _ _ _ _ _ _ _ _ h with
      ⟨hpre, hout⟩ | ⟨rs, v2, c2, w2, hpre, hexec, hrest⟩
    · simp only [Prod.mk.injEq] at hout
      obtain ⟨rfl, rfl, rfl, rfl, rfl⟩ := hout
      simp [execEvents]
    · rcases hrest with ⟨hpost, hout⟩ | ⟨hpost, hrest⟩
      · simp only [Prod.mk.injEq] at hout
        obtain ⟨rfl, rfl, rfl, rfl, rfl⟩ := hout
        simp [iterEvents, execEvents, execEvents_append, execEvents_recordEvents]
      · rcases hrest with ⟨lastR, hff, hlast, hdirty, hout⟩ |
          ⟨accR, vR, cR, wR, trR, hrec, hrest⟩
        · simp only [Prod.mk.injEq] at hout
          obtain ⟨rfl, rfl, rfl, rfl, rfl⟩ := hout
          simp [iterEvents, execEvents, execEvents_append, execEvents_recordEvents]
        · rcases hrest with ⟨hff, hout⟩ | ⟨lastR, hff, hlast, hclean, hout⟩ <;>
          · simp only [Prod.mk.injEq] at hout
            obtain ⟨rfl, rfl, rfl, rfl, rfl⟩ := hout
            have := ih _ _ _ _ _ _ _ _ hrec
            simp [iterEvents, execEvents, execEvents_append, execEvents_recordEvents, this]

/-- Nothing is observed after a loop-terminating event. -/
theorem runEntries_stopsTerminal (exec : Executor) (g : OptionsResolver)
    (ro : RunnerOptions) (co : ClientOptions) (lg : Logger) (l : List (Nat × Entry)) :
    ∀ c v w acc v' c' w' tr,
      runEntries exec g ro co lg l c v w = some (acc, v', c', w', tr) →
        StopsTerminal tr := by
  induction l with
  | nil =>
    intro c v w acc v' c' w' tr h
    rw [runEntries_nil_eq] at h
    simp only [Option.some.injEq, Prod.mk.injEq] at h
    obtain ⟨rfl, rfl, rfl, rfl, rfl⟩ := h
    exact stopsTerminal_nil
  | cons p rest ih =>
    obtain ⟨idx, e⟩ := p
    intro c v w acc v' c' w' tr h
    rcases runEntries_cons_cases _ _ _ _ _ _ _ _ _ _ _ _ h with
      ⟨hpre, hout⟩ | ⟨rs, v2, c2, w2, hpre, hexec, hrest⟩
    · simp only [Prod.mk.injEq] at hout
      obtain ⟨rfl, rfl, rfl, rfl, rfl⟩ := hout
      exact stopsTerminal_single _
    · rcases hrest with ⟨hpost, hout⟩ | ⟨hpost, hrest⟩
      · simp only [Prod.mk.injEq] at hout
        obtain ⟨rfl, rfl, rfl, rfl, rfl⟩ := hout
        exact stopsTerminal_append _ _ (iterEvents_not_stop _ _ _ _ _ _ _)
          (stopsTerminal_single _)
      · rcases hrest with ⟨lastR, hff, hlast, hdirty, hout⟩ |
          ⟨accR, vR, cR, wR, trR, hrec, hrest⟩
        · simp only [Prod.mk.injEq] at hout
          obtain ⟨rfl, rfl, rfl, rfl, rfl⟩ := hout
          exact stopsTerminal_append _ _ (iterEvents_not_stop _ _ _ _ _ _ _)
            (stopsTerminal_cons _ _ rfl (stopsTerminal_single _))
        · rcases hrest with ⟨hff, hout⟩ | ⟨lastR, hff, hlast, hclean, hout⟩
          · simp only [Prod.mk.injEq] at hout
            obtain ⟨rfl, rfl, rfl, rfl, rfl⟩ := hout
            exact stopsTerminal_append _ _ (iterEvents_not_stop _ _ _ _ _ _ _)
              (stopsTerminal_cons _ _ rfl (ih _ _ _ _ _ _ _ _ hrec))
          · simp only [Prod.mk.injEq] at hout
            obtain ⟨rfl, rfl, rfl, rfl, rfl⟩ := hout
            exact stopsTerminal_append _ _ (iterEvents_not_stop _ _ _ _ _ _ _)
              (stopsTerminal_cons _ _ rfl (stopsTerminal_cons _ _ rfl
                (ih _ _ _ _ _ _ _ _ hrec)))

end Hurl

namespace Hurl

theorem iter_append_eq (elog : Logger) (idx : Nat) (e : Entry) (opts : ClientOptions)
    (vi : Variables) (rs : List EntryResult) (vo : Variables) (X : List Event) :
    iterEvents elog idx e opts vi rs vo ++ X =
      Event.preHookCall e false :: Event.logDebug elog separatorLine ::
        Event.logDebug elog (execMsg idx) :: Event.optionsResolved e opts ::
          Event.execCall idx e vi rs vo :: (recordEvents elog rs ++ X) := by
  simp [iterEvents]

theorem execEvents_cons_post (b : Bool) (tr : List Event) :
    execEvents (Event.postHookCall b :: tr) = execEvents tr := rfl

theorem execEvents_cons_ffc (r : EntryResult) (t : Bool) (tr : List Event) :
    execEvents (Event.failFastChecked r t :: tr) = execEvents tr := rfl

/-- Every executor invocation of the loop is immediately followed by the
error-reporting and outcome-recording events of its whole outcome sequence. -/
theorem runEntries_execFollowed (exec : Executor) (g : OptionsResolver)
    (ro : RunnerOptions) (co : ClientOptions) (lg : Logger) (l : List (Nat × Entry)) :
    ∀ c v w acc v' c' w' tr,
      runEntries exec g ro co lg l c v w = some (acc, v', c', w', tr) →
        ExecFollowed co lg tr := by
  induction l with
  | nil =>
    intro c v w acc v' c' w' tr h
    rw [runEntries_nil_eq] at h
    simp only [Option.some.injEq, Prod.mk.injEq] at h
    obtain ⟨rfl, rfl, rfl, rfl, rfl⟩ := h
    exact execFollowed_nil co lg
  | cons p rest ih =>
    obtain ⟨idx, e⟩ := p
    intro c v w acc v' c' w' tr h
    rcases runEntries_cons_cases _ _ _ _ _ _ _ _ _ _ _ _ h with
      ⟨hpre, hout⟩ | ⟨rs, v2, c2, w2, hpre, hexec, hrest⟩
    · simp only [Prod.mk.injEq] at hout
      obtain ⟨rfl, rfl, rfl, rfl, rfl⟩ := hout
      exact execFollowed_cons co lg _ _ rfl (execFollowed_nil co lg)
    · rcases hrest with ⟨hpost, hout⟩ | ⟨hpost, hrest⟩
      · simp only [Prod.mk.injEq] at hout
        obtain ⟨rfl, rfl, rfl, rfl, rfl⟩ := hout
        rw [iter_append_eq]
        refine execFollowed_cons co lg _ _ rfl (execFollowed_cons co lg _ _ rfl
          (execFollowed_cons co lg _ _ rfl (execFollowed_cons co lg _ _ rfl
            (execFollowed_cons_exec co lg _ _ _ _ _ _ ?_))))
        exact execFollowed_append co lg _ _ (recordEvents_not_exec _ _)
          (execFollowed_cons co lg _ _ rfl (execFollowed_nil co lg))
      · rcases hrest with ⟨lastR, hff, hlast, hdirty, hout⟩ |
          ⟨accR, vR, cR, wR, trR, hrec, hrest⟩
        · simp only [Prod.mk.injEq] at hout
          obtain ⟨rfl, rfl, rfl, rfl, rfl⟩ := hout
          rw [iter_append_eq]
          refine execFollowed_cons co lg _ _ rfl (execFollowed_cons co lg _ _ rfl
            (execFollowed_cons co lg _ _ rfl (execFollowed_cons co lg _ _ rfl
              (execFollowed_cons_exec co lg _ _ _ _ _ _ ?_))))
          exact execFollowed_append co lg _ _ (recordEvents_not_exec _ _)
            (execFollowed_cons co lg _ _ rfl
              (execFollowed_cons co lg _ _ rfl (execFollowed_nil co lg)))
        · rcases hrest with ⟨hff, hout⟩ | ⟨lastR, hff, hlast, hclean, hout⟩
          · simp only [Prod.mk.injEq] at hout
            obtain ⟨rfl, rfl, rfl, rfl, rfl⟩ := hout
            rw [iter_append_eq]
            refine execFollowed_cons co lg _ _ rfl (execFollowed_cons co lg _ _ rfl
              (execFollowed_cons co lg _ _ rfl (execFollowed_cons co lg _ _ rfl
                (execFollowed_cons_exec co lg _ _ _ _ _ _ ?_))))
            exact execFollowed_append co lg _ _ (recordEvents_not_exec _ _)
              (execFollowed_cons co lg _ _ rfl (ih _ _ _ _ _ _ _ _ hrec))
          · simp only [Prod.mk.injEq] at hout
            obtain ⟨rfl, rfl, rfl, rfl, rfl⟩ := hout
            rw [iter_append_eq]
            refine execFollowed_cons co lg _ _ rfl (execFollowed_cons co lg _ _ rfl
              (execFollowed_cons co lg _ _ rfl (execFollowed_cons co lg _ _ rfl
                (execFollowed_cons_exec co lg _ _ _ _ _ _ ?_))))
            exact execFollowed_append co lg _ _ (recordEvents_not_exec _ _)
              (execFollowed_cons co lg _ _ rfl
                (execFollowed_cons co lg _ _ rfl (ih _ _ _ _ _ _ _ _ hrec)))

/-- The variable environment is threaded through the executor invocations: the
first invocation receives the loop's initial environment, and each invocation
receives exactly the environment the previous one returned. -/
theorem runEntries_chain (exec : Executor) (g : OptionsResolver)
    (ro : RunnerOptions) (co : ClientOptions) (lg : Logger) (l : List (Nat × Entry)) :
    ∀ c v w acc v' c' w' tr,
      runEntries exec g ro co lg l c v w = some (acc, v', c', w', tr) →
        List.Chain' (fun a b => b.varsIn = a.varsOut) (execEvents tr) ∧
          ∀ i, (execEvents tr).head? = some i → i.varsIn = v := by
  induction l with
  | nil =>
    intro c v w acc v' c' w' tr h
    rw [runEntries_nil_eq] at h
    simp only [Option.some.injEq, Prod.mk.injEq] at h
    obtain ⟨rfl, rfl, rfl, rfl, rfl⟩ := h
    exact ⟨List.chain'_nil, fun i h => by simp [execEvents] at h⟩
  | cons p rest ih =>
    obtain ⟨idx, e⟩ := p
    intro c v w acc v' c' w' tr h
    rcases runEntries_cons_cases _ _ _ _ _ _ _ _ _ _ _ _ h with
      ⟨hpre, hout⟩ | ⟨rs, v2, c2, w2, hpre, hexec, hrest⟩
    · simp only [Prod.mk.injEq] at hout
      obtain ⟨rfl, rfl, rfl, rfl, rfl⟩ := hout
      exact ⟨by simp [execEvents], fun i h => by simp [execEvents] at h⟩
    · rcases hrest with ⟨hpost, hout⟩ | ⟨hpost, hrest⟩
      · simp only [Prod.mk.injEq] at hout
        obtain ⟨rfl, rfl, rfl, rfl, rfl⟩ := hout
        rw [iter_append_eq]
        simp only [execEvents, execEvents_append, execEvents_recordEvents,
          execEvents_cons_post, List.nil_append]
        exact ⟨List.chain'_singleton _, fun i h => by
          simp only [List.head?_cons, Option.some.injEq] at h
          rw [← h]⟩
      · rcases hrest with ⟨lastR, hff, hlast, hdirty, hout⟩ |
          ⟨accR, vR, cR, wR, trR, hrec, hrest⟩
        · simp only [Prod.mk.injEq] at hout
          obtain ⟨rfl, rfl, rfl, rfl, rfl⟩ := hout
          rw [iter_append_eq]
          simp only [execEvents, execEvents_append, execEvents_recordEvents,
            execEvents_cons_post, execEvents_cons_ffc, List.nil_append]
          exact ⟨List.chain'_singleton _, fun i h => by
            simp only [List.head?_cons, Option.some.injEq] at h
            rw [← h]⟩
        · rcases hrest with ⟨hff, hout⟩ | ⟨lastR, hff, hlast, hclean, hout⟩ <;>
          · simp only [Prod.mk.injEq] at hout
            obtain ⟨rfl, rfl, rfl, rfl, rfl⟩ := hout
            have hih := ih _ _ _ _ _ _ _ _ hrec
            rw [iter_append_eq]
            simp only [execEvents, execEvents_append, execEvents_recordEvents,
              execEvents_cons_post, execEvents_cons_ffc, List.nil_append]
            constructor
            · rw [List.chain'_cons']
              exact ⟨fun b hb => hih.2 b (Option.mem_def.mp hb), hih.1⟩
            · intro i h
              simp only [List.head?_cons, Option.some.injEq] at h
              rw [← h]

end Hurl

namespace Hurl

/-- The loop invokes the executor at most once per available entry. -/
theorem runEntries_length_le (exec : Executor) (g : OptionsResolver)
    (ro : RunnerOptions) (co : ClientOptions) (lg : Logger) (l : List (Nat × Entry)) :
    ∀ c v w acc v' c' w' tr,
      runEntries exec g ro co lg l c v w = some (acc, v', c', w', tr) →
        (execEvents tr).length ≤ l.length := by
  induction l with
  | nil =>
    intro c v w acc v' c' w' tr h
    rw [runEntries_nil_eq] at h
    simp only [Option.some.injEq, Prod.mk.injEq] at h
    obtain ⟨rfl, rfl, rfl, rfl, rfl⟩ := h
    simp [execEvents]
  | cons p rest ih =>
    obtain ⟨idx, e⟩ := p
    intro c v w acc v' c' w' tr h
    rcases runEntries_cons_cases _ _ _ _ _ _ _ _ _ _ _ _ h with
      ⟨hpre, hout⟩ | ⟨rs, v2, c2, w2, hpre, hexec, hrest⟩
    · simp only [Prod.mk.injEq] at hout
      obtain ⟨rfl, rfl, rfl, rfl, rfl⟩ := hout
      simp [execEvents]
    · rcases hrest with ⟨hpost, hout⟩ | ⟨hpost, hrest⟩
      · simp only [Prod.mk.injEq] at hout
        obtain ⟨rfl, rfl, rfl, rfl, rfl⟩ := hout
        rw [iter_append_eq]
        simp [execEvents, execEvents_append, execEvents_recordEvents,
          execEvents_cons_post]
      · rcases hrest with ⟨lastR, hff, hlast, hdirty, hout⟩ |
          ⟨accR, vR, cR, wR, trR, hrec, hrest⟩
        · simp only [Prod.mk.injEq] at hout
          obtain ⟨rfl, rfl, rfl, rfl, rfl⟩ := hout
          rw [iter_append_eq]
          simp [execEvents, execEvents_append, execEvents_recordEvents,
            execEvents_cons_post, execEvents_cons_ffc]
        · rcases hrest with ⟨hff, hout⟩ | ⟨lastR, hff, hlast, hclean, hout⟩ <;>
          · simp only [Prod.mk.injEq] at hout
            obtain ⟨rfl, rfl, rfl, rfl, rfl⟩ := hout
            have hih := ih _ _ _ _ _ _ _ _ hrec
            rw [iter_append_eq]
            simp only [execEvents, execEvents_append, execEvents_recordEvents,
              execEvents_cons_post, execEvents_cons_ffc, List.nil_append,
              List.length_cons]
            omega

/-- If no stop event occurs in the trace, the loop invoked the executor exactly
once per available entry. -/
theorem runEntries_noStop_length (exec : Executor) (g : OptionsResolver)
    (ro : RunnerOptions) (co : ClientOptions) (lg : Logger) (l : List (Nat × Entry)) :
    ∀ c v w acc v' c' w' tr,
      runEntries exec g ro co lg l c v w = some (acc, v', c', w', tr) →
        (∀ ev ∈ tr, isStop ev = false) → (execEvents tr).length = l.length := by
  induction l with
  | nil =>
    intro c v w acc v' c' w' tr h _
    rw [runEntries_nil_eq] at h
    simp only [Option.some.injEq, Prod.mk.injEq] at h
    obtain ⟨rfl, rfl, rfl, rfl, rfl⟩ := h
    simp [execEvents]
  | cons p rest ih =>
    obtain ⟨idx, e⟩ := p
    intro c v w acc v' c' w' tr h hns
    rcases runEntries_cons_cases _ _ _ _ _ _ _ _ _ _ _ _ h with
      ⟨hpre, hout⟩ | ⟨rs, v2, c2, w2, hpre, hexec, hrest⟩
    · simp only [Prod.mk.injEq] at hout
      obtain ⟨rfl, rfl, rfl, rfl, rfl⟩ := hout
      have := hns (Event.preHookCall e true) (by simp)
      simp [isStop] at this
    · rcases hrest with ⟨hpost, hout⟩ | ⟨hpost, hrest⟩
      · simp only [Prod.mk.injEq] at hout
        obtain ⟨rfl, rfl, rfl, rfl, rfl⟩ := hout
        have := hns (Event.postHookCall true) (by simp)
        simp [isStop] at this
      · rcases hrest with ⟨lastR, hff, hlast, hdirty, hout⟩ |
          ⟨accR, vR, cR, wR, trR, hrec, hrest⟩
        · simp only [Prod.mk.injEq] at hout
          obtain ⟨rfl, rfl, rfl, rfl, rfl⟩ := hout
          have := hns (Event.failFastChecked lastR true) (by simp)
          simp [isStop] at this
        · rcases hrest with ⟨hff, hout⟩ | ⟨lastR, hff, hlast, hclean, hout⟩ <;>
          · simp only [Prod.mk.injEq] at hout
            obtain ⟨rfl, rfl, rfl, rfl, rfl⟩ := hout
            have hih := ih _ _ _ _ _ _ _ _ hrec
              (fun ev hev => hns ev (by simp [hev]))
            rw [iter_append_eq]
            simp only [execEvents, execEvents_append, execEvents_recordEvents,
              execEvents_cons_post, execEvents_cons_ffc, List.nil_append,
              List.length_cons, List.length_cons, hih]

/-- The executor is invoked on consecutive entry indices, in script order,
starting at the first index of the worklist. -/
theorem runEntries_range (exec : Executor) (g : OptionsResolver)
    (ro : RunnerOptions) (co : ClientOptions) (lg : Logger) (l : List (Nat × Entry)) :
    ∀ j c v w acc v' c' w' tr,
      runEntries exec g ro co lg l c v w = some (acc, v', c', w', tr) →
        l.map Prod.fst = List.range' j l.length →
          (execEvents tr).map ExecInfo.idx = List.range' j (execEvents tr).length := by
  induction l with
  | nil =>
    intro j c v w acc v' c' w' tr h _
    rw [runEntries_nil_eq] at h
    simp only [Option.some.injEq, Prod.mk.injEq] at h
    obtain ⟨rfl, rfl, rfl, rfl, rfl⟩ := h
    simp [execEvents]
  | cons p rest ih =>
    obtain ⟨idx, e⟩ := p
    intro j c v w acc v' c' w' tr h hidx
    rw [List.length_cons, List.map_cons, List.range'_succ, List.cons.injEq] at hidx
    obtain ⟨rfl, hidx⟩ := hidx
    rcases runEntries_cons_cases _ _ _ _ _ _ _ _ _ _ _ _ h with
      ⟨hpre, hout⟩ | ⟨rs, v2, c2, w2, hpre, hexec, hrest⟩
    · simp only [Prod.mk.injEq] at hout
      obtain ⟨rfl, rfl, rfl, rfl, rfl⟩ := hout
      simp [execEvents]
    · rcases hrest with ⟨hpost, hout⟩ | ⟨hpost, hrest⟩
      · simp only [Prod.mk.injEq] at hout
        obtain ⟨rfl, rfl, rfl, rfl, rfl⟩ := hout
        rw [iter_append_eq]
        simp [execEvents, execEvents_append, execEvents_recordEvents,
          execEvents_cons_post, List.range'_succ]
      · rcases hrest with ⟨lastR, hff, hlast, hdirty, hout⟩ |
          ⟨accR, vR, cR, wR, trR, hrec, hrest⟩
        · simp only [Prod.mk.injEq] at hout
          obtain ⟨rfl, rfl, rfl, rfl, rfl⟩ := hout
          rw [iter_append_eq]
          simp [execEvents, execEvents_append, execEvents_recordEvents,
            execEvents_cons_post, execEvents_cons_ffc, List.range'_succ]
        · rcases hrest with ⟨hff, hout⟩ | ⟨lastR, hff, hlast, hclean, hout⟩ <;>
          · simp only [Prod.mk.injEq] at hout
            obtain ⟨rfl, rfl, rfl, rfl, rfl⟩ := hout
            have hih := ih _ _ _ _ _ _ _ _ _ hrec hidx
            rw [iter_append_eq]
            simp only [execEvents, execEvents_append, execEvents_recordEvents,
              execEvents_cons_post, execEvents_cons_ffc, List.nil_append,
              List.length_cons, List.map_cons, hih, List.range'_succ]

/-- Every debug log of the loop goes through the scoped logger of one of the
worklist's entries. -/
theorem runEntries_logDebug (exec : Executor) (g : OptionsResolver)
    (ro : RunnerOptions) (co : ClientOptions) (lg : Logger) (l : List (Nat × Entry)) :
    ∀ c v w acc v' c' w' tr,
      runEntries exec g ro co lg l c v w = some (acc, v', c', w', tr) →
        ∀ lgx m, Event.logDebug lgx m ∈ tr →
          ∃ e2, e2 ∈ l.map Prod.snd ∧ lgx = scopedLogger lg e2 co := by
  induction l with
  | nil =>
    intro c v w acc v' c' w' tr h
    rw [runEntries_nil_eq] at h
    simp only [Option.some.injEq, Prod.mk.injEq] at h
    obtain ⟨rfl, rfl, rfl, rfl, rfl⟩ := h
    intro lgx m hmem
    simp at hmem
  | cons p rest ih =>
    obtain ⟨idx, e⟩ := p
    intro c v w acc v' c' w' tr h lgx m hmem
    rcases runEntries_cons_cases _ _ _ _ _ _ _ _ _ _ _ _ h with
      ⟨hpre, hout⟩ | ⟨rs, v2, c2, w2, hpre, hexec, hrest⟩
    · simp only [Prod.mk.injEq] at hout
      obtain ⟨rfl, rfl, rfl, rfl, rfl⟩ := hout
      simp at hmem
    · have hiter : ∀ X, Event.logDebug lgx m ∈
          iterEvents (scopedLogger lg e co) idx e (g e co (scopedLogger lg e co)) v rs v2 ++ X →
          (lgx = scopedLogger lg e co ∨ Event.logDebug lgx m ∈ X) := by
        intro X hm
        rcases List.mem_append.1 hm with hm | hm
        · rcases iterEvents_mem _ _ _ _ _ _ _ _ hm with h' | h' | h' | h' | h' | h'
          · cases h'
          · injection h' with h1 h2
            exact Or.inl h1
          · injection h' with h1 h2
            exact Or.inl h1
          · cases h'
          · cases h'
          · rcases recordEvents_shape _ _ _ h' with ⟨er, h''⟩ | ⟨r', h''⟩ <;> cases h''
        · exact Or.inr hm
      rcases hrest with ⟨hpost, hout⟩ | ⟨hpost, hrest⟩
      · simp only [Prod.mk.injEq] at hout
        obtain ⟨rfl, rfl, rfl, rfl, rfl⟩ := hout
        rcases hiter _ hmem with h' | h'
        · exact ⟨e, by simp, h'⟩
        · simp at h'
      · rcases hrest with ⟨lastR, hff, hlast, hdirty, hout⟩ |
          ⟨accR, vR, cR, wR, trR, hrec, hrest⟩
        · simp only [Prod.mk.injEq] at hout
          obtain ⟨rfl, rfl, rfl, rfl, rfl⟩ := hout
          rcases hiter _ hmem with h' | h'
          · exact ⟨e, by simp, h'⟩
          · simp at h'
        · rcases hrest with ⟨hff, hout⟩ | ⟨lastR, hff, hlast, hclean, hout⟩ <;>
          · simp only [Prod.mk.injEq] at hout
            obtain ⟨rfl, rfl, rfl, rfl, rfl⟩ := hout
            rcases hiter _ hmem with h' | h'
            · exact ⟨e, by simp, h'⟩
            · have h'' : Event.logDebug lgx m ∈ trR := by
                simp only [List.mem_cons] at h'
                rcases h' with h' | h'
                · cases h'
                · first
                  | exact h'
                  | (rcases h' with h' | h'
                     · cases h'
                     · exact h')
              obtain ⟨e2, he2, hlg⟩ := ih _ _ _ _ _ _ _ _ hrec lgx m h''
              exact ⟨e2, by simp; right; simpa using he2, hlg⟩

end Hurl

namespace Hurl

theorem getLast?_append_some {α} (l₁ l₂ : List α) (a : α) (h : l₂.getLast? = some a) :
    (l₁ ++ l₂).getLast? = some a := by
  rw [List.getLast?_append_of_ne_nil]
  · exact h
  · intro hnil
    simp [hnil] at h

theorem ffHonest_of_no_ffc (tr : List Event)
    (h : ∀ r t, Event.failFastChecked r t ∉ tr) : FailFastHonest tr := by
  intro tr₁ r t tr₂ hsplit
  have hmem : Event.failFastChecked r t ∈ tr := by
    rw [hsplit]
    simp
  exact absurd hmem (h r t)

theorem no_ffc_iter_post (elog : Logger) (idx : Nat) (e : Entry)
    (opts : ClientOptions) (vi : Variables) (rs : List EntryResult) (vo : Variables)
    (b : Bool) :
    ∀ y ∈ iterEvents elog idx e opts vi rs vo ++ [Event.postHookCall b],
      ¬ ∃ r t, y = Event.failFastChecked r t := by
  intro y hy hP
  obtain ⟨r, t, rfl⟩ := hP
  rcases List.mem_append.1 hy with h | h
  · exact iterEvents_no_ffc _ _ _ _ _ _ _ r t h
  · simp at h

theorem iter_post_self_getLast (elog : Logger) (idx : Nat) (e : Entry)
    (opts : ClientOptions) (vi : Variables) (rs : List EntryResult) (vo : Variables)
    (b : Bool) :
    (execEvents ((iterEvents elog idx e opts vi rs vo ++ [Event.postHookCall b]) ++
      ([] : List Event))).getLast? = some ⟨idx, e, vi, rs, vo⟩ := by
  simp [iter_append_eq, execEvents, execEvents_append, execEvents_recordEvents,
    execEvents_cons_post]

theorem iter_post_getLast (elog : Logger) (idx : Nat) (e : Entry)
    (opts : ClientOptions) (vi : Variables) (rs : List EntryResult) (vo : Variables)
    (b : Bool) (X : List Event) (info : ExecInfo)
    (h : (execEvents X).getLast? = some info) :
    (execEvents ((iterEvents elog idx e opts vi rs vo ++ [Event.postHookCall b]) ++
      X)).getLast? = some info := by
  rw [execEvents_append]
  exact getLast?_append_some _ _ _ h

/-- Every fail-fast check of the loop inspected the last outcome of the most
recent executor invocation, and triggered exactly when that outcome errored. -/
theorem runEntries_ffHonest (exec : Executor) (g : OptionsResolver)
    (ro : RunnerOptions) (co : ClientOptions) (lg : Logger) (l : List (Nat × Entry)) :
    ∀ c v w acc v' c' w' tr,
      runEntries exec g ro co lg l c v w = some (acc, v', c', w', tr) →
        FailFastHonest tr := by
  induction l with
  | nil =>
    intro c v w acc v' c' w' tr h
    rw [runEntries_nil_eq] at h
    simp only [Option.some.injEq, Prod.mk.injEq] at h
    obtain ⟨rfl, rfl, rfl, rfl, rfl⟩ := h
    exact ffHonest_of_no_ffc _ (by simp)
  | cons p rest ih =>
    obtain ⟨idx, e⟩ := p
    intro c v w acc v' c' w' tr h
    rcases runEntries_cons_cases _ _ _ _ _ _ _ _ _ _ _ _ h with
      ⟨hpre, hout⟩ | ⟨rs, v2, c2, w2, hpre, hexec, hrest⟩
    · simp only [Prod.mk.injEq] at hout
      obtain ⟨rfl, rfl, rfl, rfl, rfl⟩ := hout
      exact ffHonest_of_no_ffc _ (by simp)
    · rcases hrest with ⟨hpost, hout⟩ | ⟨hpost, hrest⟩
      · simp only [Prod.mk.injEq] at hout
        obtain ⟨rfl, rfl, rfl, rfl, rfl⟩ := hout
        refine ffHonest_of_no_ffc _ (fun r t hmem => ?_)
        exact no_ffc_iter_post _ _ _ _ _ _ _ _ _ hmem ⟨r, t, rfl⟩
      · rcases hrest with ⟨lastR, hff, hlast, hdirty, hout⟩ |
          ⟨accR, vR, cR, wR, trR, hrec, hrest⟩
        · -- fail-fast stop
          simp only [Prod.mk.injEq] at hout
          obtain ⟨rfl, rfl, rfl, rfl, rfl⟩ := hout
          intro tr₁ r t tr₂ hsplit
          rw [show ([Event.postHookCall false, Event.failFastChecked lastR true] :
                List Event) =
              [Event.postHookCall false] ++ [Event.failFastChecked lastR true] from rfl,
            ← List.append_assoc] at hsplit
          obtain ⟨tr₁', htr₁, hrest'⟩ :=
            split_in_second (fun y => ∃ r' t', y = Event.failFastChecked r' t') _ _ _ _ _
              hsplit ⟨r, t, rfl⟩ (no_ffc_iter_post _ _ _ _ _ _ _ _)
          rcases tr₁' with _ | ⟨y, tr₁''⟩
          · simp only [List.nil_append, List.cons.injEq,
              Event.failFastChecked.injEq] at hrest'
            obtain ⟨⟨rfl, rfl⟩, rfl⟩ := hrest'
            subst htr₁
            constructor
            · rw [hdirty]
              rfl
            · exact ⟨_, iter_post_self_getLast _ _ _ _ _ _ _ _, hlast⟩
          · simp only [List.cons_append, List.cons.injEq] at hrest'
            exact absurd hrest'.2 (by simp)
        · rcases hrest with ⟨hff, hout⟩ | ⟨lastR, hff, hlast, hclean, hout⟩
          · -- continue, fail_fast off
            simp only [Prod.mk.injEq] at hout
            obtain ⟨rfl, rfl, rfl, rfl, rfl⟩ := hout
            intro tr₁ r t tr₂ hsplit
            rw [show (Event.postHookCall false :: trR) =
                [Event.postHookCall false] ++ trR from rfl,
              ← List.append_assoc] at hsplit
            obtain ⟨tr₁', htr₁, hrest'⟩ :=
              split_in_second (fun y => ∃ r' t', y = Event.failFastChecked r' t') _ _ _ _ _
                hsplit ⟨r, t, rfl⟩ (no_ffc_iter_post _ _ _ _ _ _ _ _)
            obtain ⟨hteq, info, hinfo, hres⟩ := ih _ _ _ _ _ _ _ _ hrec _ _ _ _ hrest'
            subst htr₁
            exact ⟨hteq, info, iter_post_getLast _ _ _ _ _ _ _ _ _ _ hinfo, hres⟩
          · -- continue, fail-fast check negative
            simp only [Prod.mk.injEq] at hout
            obtain ⟨rfl, rfl, rfl, rfl, rfl⟩ := hout
            intro tr₁ r t tr₂ hsplit
            rw [show (Event.postHookCall false ::
                  Event.failFastChecked lastR false :: trR) =
                [Event.postHookCall false] ++
                  (Event.failFastChecked lastR false :: trR) from rfl,
              ← List.append_assoc] at hsplit
            obtain ⟨tr₁', htr₁, hrest'⟩ :=
              split_in_second (fun y => ∃ r' t', y = Event.failFastChecked r' t') _ _ _ _ _
                hsplit ⟨r, t, rfl⟩ (no_ffc_iter_post _ _ _ _ _ _ _ _)
            rcases tr₁' with _ | ⟨y, tr₁''⟩
            · simp only [List.nil_append, List.cons.injEq,
                Event.failFastChecked.injEq] at hrest'
              obtain ⟨⟨rfl, rfl⟩, rfl⟩ := hrest'
              subst htr₁
              constructor
              · rw [hclean]
                rfl
              · exact ⟨_, iter_post_self_getLast _ _ _ _ _ _ _ _, hlast⟩
            · simp only [List.cons_append, List.cons.injEq] at hrest'
              obtain ⟨rfl, hrest''⟩ := hrest'
              obtain ⟨hteq, info, hinfo, hres⟩ := ih _ _ _ _ _ _ _ _ hrec _ _ _ _ hrest''
              subst htr₁
              refine ⟨hteq, info, iter_post_getLast _ _ _ _ _ _ _ _ _ _ ?_, hres⟩
              rw [execEvents_cons_ffc]
              exact hinfo

end Hurl

/-! ## Variable-map lemmas -/

namespace Hurl

theorem lookup_eq_none_of_not_mem (l : Variables) (k : String)
    (h : k ∉ l.map Prod.fst) : List.lookup k l = none := by
  induction l with
  | nil => rfl
  | cons p l ih =>
    simp only [List.map_cons, List.mem_cons] at h
    push_neg at h
    obtain ⟨pk, pv⟩ := p
    simp [List.lookup, ih h.2, beq_eq_false_iff_ne.2 h.1]

theorem lookup_map_replace (m : Variables) (k k' : String) (v : Value)
    (hk : (k' == k) = false) :
    List.lookup k' (m.map (fun p => if p.1 == k then (k, v) else p)) =
      List.lookup k' m := by
  induction m with
  | nil => rfl
  | cons p m ih =>
    obtain ⟨pk, pv⟩ := p
    simp only [List.map_cons]
    cases hp : pk == k
    · rw [if_neg (by simp [hp])]
      simp only [List.lookup]
      cases hkp : k' == pk
      · rw [ih]
      · rfl
    · rw [if_pos (by simp [hp])]
      simp only [List.lookup]
      have hpk : pk = k := by simpa using hp
      rw [hk, hpk, hk, ih]

theorem lookup_map_replace_mem (m : Variables) (k : String) (v : Value)
    (hmem : m.any (fun p => p.1 == k) = true) :
    List.lookup k (m.map (fun p => if p.1 == k then (k, v) else p)) = some v := by
  induction m with
  | nil => simp at hmem
  | cons p m ih =>
    obtain ⟨pk, pv⟩ := p
    simp only [List.map_cons]
    cases hp : pk == k
    · rw [if_neg (by simp [hp])]
      simp only [List.lookup]
      have hkp : (k == pk) = false := by
        have : ¬ pk = k := by simpa using hp
        exact beq_eq_false_iff_ne.2 (fun hc => this hc.symm)
      rw [hkp]
      refine ih ?_
      simp only [List.any_cons, hp, Bool.false_or] at hmem
      exact hmem
    · rw [if_pos (by simp [hp])]
      simp only [List.lookup, beq_self_eq_true]

theorem lookup_append_single (m : Variables) (k k' : String) (v : Value)
    (hnm : m.any (fun p => p.1 == k) = false) :
    List.lookup k' (m ++ [(k, v)]) =
      if k' == k then some v else List.lookup k' m := by
  induction m with
  | nil =>
    simp only [List.nil_append, List.lookup]
    cases hk : k' == k <;> rfl
  | cons p m ih =>
    obtain ⟨pk, pv⟩ := p
    simp only [List.any_cons, Bool.or_eq_false_iff] at hnm
    cases hkp : k' == pk
    · simp only [List.cons_append, List.lookup, hkp, List.append_eq]
      rw [ih hnm.2]
    · have hne : (k' == k) = false := by
        have h1 : k' = pk := by simpa using hkp
        have h2 : ¬ pk = k := by simpa using hnm.1
        exact beq_eq_false_iff_ne.2 (fun hc => h2 (h1 ▸ hc))
      simp only [List.cons_append, List.lookup, hkp, hne]
      simp

/-- The observable content of `HashMap::insert`: lookups after the insert read the
new binding at the inserted key and the old bindings elsewhere. -/
theorem lookup_hashInsert (m : Variables) (k k' : String) (v : Value) :
    List.lookup k' (hashInsert m k v) =
      if k' == k then some v else List.lookup k' m := by
  unfold hashInsert
  cases hmem : m.any (fun p => p.1 == k)
  · rw [if_neg (by simp [hmem])]
    exact lookup_append_single m k k' v hmem
  · rw [if_pos (by simp [hmem])]
    cases hk : k' == k
    · rw [lookup_map_replace m k k' v hk]
      simp
    · have : k' = k := by simpa using hk
      subst this
      exact lookup_map_replace_mem m k' v hmem

theorem foldl_hashInsert_lookup (vs : Variables) :
    ∀ acc k, (vs.map Prod.fst).Nodup →
      List.lookup k (vs.foldl (fun m kv => hashInsert m kv.1 kv.2) acc) =
        Option.orElse (List.lookup k vs) (fun _ => List.lookup k acc) := by
  induction vs with
  | nil =>
    intro acc k _
    simp [List.lookup]
  | cons p vs ih =>
    intro acc k hnd
    obtain ⟨pk, pv⟩ := p
    simp only [List.map_cons, List.nodup_cons] at hnd
    rw [List.foldl_cons, ih _ k hnd.2]
    simp only [List.lookup]
    cases hk : k == pk
    · cases hv : List.lookup k vs
      · simp only [Option.orElse]
        rw [lookup_hashInsert, hk]
        simp
      · simp [Option.orElse]
    · have hkpk : k = pk := by simpa using hk
      subst hkpk
      rw [lookup_eq_none_of_not_mem vs k (by simpa using hnd.1)]
      simp only [Option.orElse]
      rw [lookup_hashInsert, beq_self_eq_true]
      simp

/-- Copying the caller's variables yields a map with exactly the same bindings:
every key reads the same value in the copy as in the original. -/
theorem copyVariables_lookup (vs : Variables) (k : String)
    (h : (vs.map Prod.fst).Nodup) :
    List.lookup k (copyVariables vs) = List.lookup k vs := by
  rw [copyVariables, foldl_hashInsert_lookup vs [] k h]
  cases hv : List.lookup k vs <;> simp [Option.orElse, List.lookup]

/-- The success flag of the run result is set exactly when no accumulated outcome
carries an error. -/
theorem success_iff (acc : List EntryResult) :
    ((acc.map EntryResult.errors).flatten).head?.isNone = true ↔
      ∀ r ∈ acc, r.errors = [] := by
  rw [Option.isNone_iff_eq_none, List.head?_eq_none_iff, List.flatten_eq_nil_iff]
  simp

end Hurl

/-! ## Unfolding the top-level run -/

namespace Hurl

/-- A successful run is exactly a successful loop over the `to_entry`-bounded,
enumerated entry prefix, started on a copy of the caller's variables, packaged
with the success flag and the final client's cookie snapshot. -/
theorem run_some_elim (exec : Executor) (g : OptionsResolver) (hf : HurlFile)
    (fn : String) (c : Client) (ro : RunnerOptions) (co : ClientOptions) (lg : Logger)
    (w : World) (out : HurlResult × Client × World × List Event)
    (h : run exec g hf fn c ro co lg w = some out) :
    ∃ acc vfin c2 w2 tr,
      runEntries exec g ro co lg
        ((hf.entries.take (ro.to_entry.getD hf.entries.length)).enum) c
        (copyVariables ro.varMap) w = some (acc, vfin, c2, w2, tr) ∧
      out = (⟨fn, acc, 0, ((acc.map EntryResult.errors).flatten).head?.isNone,
        c2.cookies⟩, c2, w2, tr) := by
  have hn : (match ro.to_entry with
      | some to_entry => to_entry
      | none => hf.entries.length) = ro.to_entry.getD hf.entries.length := by
    cases ro.to_entry <;> rfl
  simp only [run] at h
  rw [hn] at h
  split at h
  · cases h
  · rename_i x a b c2 w2 tr heq
    injection h with h'
    exact ⟨a, b, c2, w2, tr, heq, h'.symm⟩

/-- With fail-fast unset the conjunction on line 160 short-circuits, the
outcome list is never unwrapped, and the run cannot panic. -/
theorem runEntries_isSome_no_ff (exec : Executor) (g : OptionsResolver)
    (ro : RunnerOptions) (co : ClientOptions) (lg : Logger)
    (hff : ro.fail_fast = false) :
    ∀ l (c : Client) (v : Variables) (w : World),
      (runEntries exec g ro co lg l c v w).isSome = true := by
  intro l
  induction l with
  | nil => intro c v w; rfl
  | cons p rest ih =>
    obtain ⟨idx, e⟩ := p
    intro c v w
    simp only [runEntries, hff]
    split
    · rfl
    · split
      · rfl
      · simp only [Bool.false_eq_true, if_false]
        obtain ⟨o, ho⟩ := Option.isSome_iff_exists.mp (ih _ _ _)
        rw [ho]
        obtain ⟨a, b, c2, w2, tr⟩ := o
        rfl

/-- Under the executor interface precondition (at least one outcome per
invocation) the unwrap on line 160 always succeeds and the run cannot panic. -/
theorem runEntries_isSome_nonempty (exec : Executor) (g : OptionsResolver)
    (ro : RunnerOptions) (co : ClientOptions) (lg : Logger)
    (hne : ∀ e c v co2 lg2 w2, (exec e c v ro co2 lg2 w2).1 ≠ []) :
    ∀ l (c : Client) (v : Variables) (w : World),
      (runEntries exec g ro co lg l c v w).isSome = true := by
  intro l
  induction l with
  | nil => intro c v w; rfl
  | cons p rest ih =>
    obtain ⟨idx, e⟩ := p
    intro c v w
    simp only [runEntries]
    split
    · rfl
    · split
      · rfl
      · split
        · obtain ⟨lastR, hlast⟩ := Option.isSome_iff_exists.mp
            (List.getLast?_isSome.mpr (hne e c v _ _ _))
          rw [hlast]
          split
          · rename_i heq
            simp at heq
          · split
            · obtain ⟨o, ho⟩ := Option.isSome_iff_exists.mp (ih _ _ _)
              rw [ho]
              obtain ⟨a, b, c2, w2, tr⟩ := o
              rfl
            · rfl
        · obtain ⟨o, ho⟩ := Option.isSome_iff_exists.mp (ih _ _ _)
          rw [ho]
          obtain ⟨a, b, c2, w2, tr⟩ := o
          rfl

theorem run_isSome_no_ff (exec : Executor) (g : OptionsResolver) (hf : HurlFile)
    (fn : String) (c : Client) (ro : RunnerOptions) (co : ClientOptions)
    (lg : Logger) (w : World) (hff : ro.fail_fast = false) :
    (run exec g hf fn c ro co lg w).isSome = true := by
  simp only [run]
  obtain ⟨o, ho⟩ := Option.isSome_iff_exists.mp
    (runEntries_isSome_no_ff exec g ro co lg hff
      ((hf.entries.take (match ro.to_entry with
        | some k => k
        | none => hf.entries.length)).enum) c (copyVariables ro.varMap) w)
  rw [ho]
  obtain ⟨a, b, c2, w2, tr⟩ := o
  rfl

theorem run_isSome_nonempty (exec : Executor) (g : OptionsResolver) (hf : HurlFile)
    (fn : String) (c : Client) (ro : RunnerOptions) (co : ClientOptions)
    (lg : Logger) (w : World)
    (hne : ∀ e c v co2 lg2 w2, (exec e c v ro co2 lg2 w2).1 ≠ []) :
    (run exec g hf fn c ro co lg w).isSome = true := by
  simp only [run]
  obtain ⟨o, ho⟩ := Option.isSome_iff_exists.mp
    (runEntries_isSome_nonempty exec g ro co lg hne
      ((hf.entries.take (match ro.to_entry with
        | some k => k
        | none => hf.entries.length)).enum) c (copyVariables ro.varMap) w)
  rw [ho]
  obtain ⟨a, b, c2, w2, tr⟩ := o
  rfl

end Hurl

/-! ## Claim theorems -/

namespace Hurl

/-- C1: the overall success flag of the returned run result is true if and only if
no outcome in the accumulated outcome list carries any error; in particular a run
over an empty script returns an empty outcome list with success = true. -/
theorem run_success_iff_no_error (exec : Executor) (g : OptionsResolver)
    (hf : HurlFile) (fn : String) (c : Client) (ro : RunnerOptions)
    (co : ClientOptions) (lg : Logger) (w : World) (hr : HurlResult) (cl2 : Client)
    (wf : World) (trf : List Event)
    (h : run exec g hf fn c ro co lg w = some (hr, cl2, wf, trf)) :
    (hr.success = true ↔ ∀ r ∈ hr.entries, r.errors = []) ∧
      (hf.entries = [] → hr.entries = [] ∧ hr.success = true) := by
  obtain ⟨acc, vfin, c2, w2, tr, hrun, hout⟩ := run_some_elim _ _ _ _ _ _ _ _ _ _ h
  simp only [Prod.mk.injEq] at hout
  obtain ⟨rfl, rfl, rfl, rfl⟩ := hout
  constructor
  · simp only [HurlResult.success, HurlResult.entries]
    exact success_iff acc
  · intro hempty
    rw [hempty] at hrun
    simp only [List.take_nil] at hrun
    rw [show ([] : List Entry).enum = [] from rfl, runEntries_nil_eq] at hrun
    simp only [Option.some.injEq, Prod.mk.injEq] at hrun
    obtain ⟨rfl, rfl, rfl, rfl, rfl⟩ := hrun
    simp

/-- C2: with toEntry = k the executor is invoked on at most k entries and at most
the script length; exactly k entries when no stop event occurs and the script has
at least k entries; and k = 0 executes nothing, giving an empty outcome list and
success. -/
theorem run_to_entry_bound (exec : Executor) (g : OptionsResolver) (hf : HurlFile)
    (fn : String) (c : Client) (ro : RunnerOptions) (co : ClientOptions) (lg : Logger)
    (w : World) (k : Nat) (hr : HurlResult) (cl2 : Client) (wf : World)
    (trf : List Event) (hto : ro.to_entry = some k)
    (h : run exec g hf fn c ro co lg w = some (hr, cl2, wf, trf)) :
    (execEvents trf).length ≤ k ∧
    (execEvents trf).length ≤ hf.entries.length ∧
    ((∀ ev ∈ trf, isStop ev = false) → k ≤ hf.entries.length →
      (execEvents trf).length = k) ∧
    (k = 0 → hr.entries = [] ∧ hr.success = true ∧ trf = []) := by
  obtain ⟨acc, vfin, c2, w2, tr, hrun, hout⟩ := run_some_elim _ _ _ _ _ _ _ _ _ _ h
  simp only [Prod.mk.injEq] at hout
  obtain ⟨rfl, rfl, rfl, rfl⟩ := hout
  rw [hto] at hrun
  simp only [Option.getD_some] at hrun
  have hlen : ((hf.entries.take k).enum).length = min k hf.entries.length := by
    rw [List.enum_length, List.length_take]
  have hle := runEntries_length_le exec g ro co lg _ _ _ _ _ _ _ _ _ hrun
  rw [hlen] at hle
  refine ⟨le_trans hle (min_le_left _ _), le_trans hle (min_le_right _ _), ?_, ?_⟩
  · intro hns hk
    have hlen2 := runEntries_noStop_length exec g ro co lg _ _ _ _ _ _ _ _ _ hrun hns
    rw [hlen, min_eq_left hk] at hlen2
    exact hlen2
  · intro hk0
    subst hk0
    rw [List.take_zero] at hrun
    rw [show ([] : List Entry).enum = [] from rfl, runEntries_nil_eq] at hrun
    simp only [Option.some.injEq, Prod.mk.injEq] at hrun
    obtain ⟨rfl, rfl, rfl, rfl, rfl⟩ := hrun
    simp

/-- C3: the run's variable environment starts as a copy of the caller's map with
identical bindings, and it is threaded through the entries: the first executor
invocation receives that copy and each later invocation receives exactly the
environment the previous one returned, so mutations made during entry i are
visible to entry i+1.  (The embedding is pure, so the caller's map itself is
never modified: the run only reads it through copyVariables.) -/
theorem run_variables_copied_and_threaded :
    (∀ (vs : Variables) (k : String), (vs.map Prod.fst).Nodup →
      List.lookup k (copyVariables vs) = List.lookup k vs) ∧
    (∀ (exec : Executor) (g : OptionsResolver) (hf : HurlFile) (fn : String)
        (c : Client) (ro : RunnerOptions) (co : ClientOptions) (lg : Logger)
        (w : World) (hr : HurlResult) (cl2 : Client) (wf : World) (trf : List Event),
      run exec g hf fn c ro co lg w = some (hr, cl2, wf, trf) →
        (∀ i, (execEvents trf).head? = some i →
          i.varsIn = copyVariables ro.varMap) ∧
        List.Chain' (fun a b => b.varsIn = a.varsOut) (execEvents trf)) := by
  constructor
  · exact fun vs k hnd => copyVariables_lookup vs k hnd
  · intro exec g hf fn c ro co lg w hr cl2 wf trf h
    obtain ⟨acc, vfin, c2, w2, tr, hrun, hout⟩ := run_some_elim _ _ _ _ _ _ _ _ _ _ h
    simp only [Prod.mk.injEq] at hout
    obtain ⟨rfl, rfl, rfl, rfl⟩ := hout
    have hch := runEntries_chain exec g ro co lg _ _ _ _ _ _ _ _ _ hrun
    exact ⟨fun i hi => hch.2 i hi, hch.1⟩

/-- C4: a pre-entry hook stop terminates the loop immediately: nothing at all is
observed after the stopping pre-hook call (no policy resolution, no logging, no
executor invocation for that entry), and the run result's outcomes are exactly
those of the earlier entries; a pre-entry stop on the very first entry yields an
empty outcome list. -/
theorem run_pre_hook_stop (exec : Executor) (g : OptionsResolver) (hf : HurlFile)
    (fn : String) (c : Client) (ro : RunnerOptions) (co : ClientOptions) (lg : Logger)
    (w : World) (hr : HurlResult) (cl2 : Client) (wf : World) (trf : List Event)
    (h : run exec g hf fn c ro co lg w = some (hr, cl2, wf, trf)) :
    (∀ tr₁ e tr₂, trf = tr₁ ++ Event.preHookCall e true :: tr₂ →
      tr₂ = [] ∧ hr.entries = ((execEvents tr₁).map ExecInfo.results).flatten) ∧
    (∀ f e es, ro.pre_entry = some f → hf.entries = e :: es → ro.to_entry = none →
      (f e w).1 = true →
      hr.entries = [] ∧ hr.success = true ∧ trf = [Event.preHookCall e true]) := by
  obtain ⟨acc, vfin, c2, w2, tr, hrun, hout⟩ := run_some_elim _ _ _ _ _ _ _ _ _ _ h
  simp only [Prod.mk.injEq] at hout
  obtain ⟨rfl, rfl, rfl, rfl⟩ := hout
  constructor
  · intro tr₁ e tr₂ hsplit
    have hterm := runEntries_stopsTerminal exec g ro co lg _ _ _ _ _ _ _ _ _ hrun
      tr₁ (Event.preHookCall e true) tr₂ hsplit rfl
    subst hterm
    refine ⟨rfl, ?_⟩
    have hres := runEntries_results exec g ro co lg _ _ _ _ _ _ _ _ _ hrun
    rw [hsplit] at hres
    simpa [execEvents_append, execEvents] using hres
  · intro f e es hpre hents hto hstop
    rw [hents, hto] at hrun
    simp only [Option.getD_none, List.take_length] at hrun
    rw [show (e :: es).enum = (0, e) :: List.enumFrom 1 es from rfl] at hrun
    simp only [runEntries, runPreHook, hpre, hstop, if_true] at hrun
    simp only [Option.some.injEq, Prod.mk.injEq] at hrun
    obtain ⟨rfl, rfl, rfl, rfl, rfl⟩ := hrun
    simp

/-- C5: a post-entry hook stop terminates the loop right away: nothing is observed
after the stopping post-hook call — in particular the fail-fast check of that
entry is never evaluated — and the run result's outcomes are exactly those
recorded so far, which include all of the stopping entry's outcomes. -/
theorem run_post_hook_stop (exec : Executor) (g : OptionsResolver) (hf : HurlFile)
    (fn : String) (c : Client) (ro : RunnerOptions) (co : ClientOptions) (lg : Logger)
    (w : World) (hr : HurlResult) (cl2 : Client) (wf : World) (trf : List Event)
    (h : run exec g hf fn c ro co lg w = some (hr, cl2, wf, trf)) :
    ∀ tr₁ tr₂, trf = tr₁ ++ Event.postHookCall true :: tr₂ →
      tr₂ = [] ∧ (∀ r t, Event.failFastChecked r t ∉ tr₂) ∧
      hr.entries = ((execEvents tr₁).map ExecInfo.results).flatten := by
  obtain ⟨acc, vfin, c2, w2, tr, hrun, hout⟩ := run_some_elim _ _ _ _ _ _ _ _ _ _ h
  simp only [Prod.mk.injEq] at hout
  obtain ⟨rfl, rfl, rfl, rfl⟩ := hout
  intro tr₁ tr₂ hsplit
  have hterm := runEntries_stopsTerminal exec g ro co lg _ _ _ _ _ _ _ _ _ hrun
    tr₁ (Event.postHookCall true) tr₂ hsplit rfl
  subst hterm
  refine ⟨rfl, by simp, ?_⟩
  have hres := runEntries_results exec g ro co lg _ _ _ _ _ _ _ _ _ hrun
  rw [hsplit] at hres
  simpa [execEvents_append, execEvents] using hres

/-- C6: every fail-fast check inspects exactly the last outcome of the most recent
executor invocation and triggers exactly when that outcome carries an error — so
errors carried only by earlier outcomes of a multi-outcome entry never trigger
fail-fast; when it triggers, the loop ends immediately (no entry after it is
executed) and the run result still includes all outcomes recorded so far,
including the stopping entry's. -/
theorem run_fail_fast_last_outcome (exec : Executor) (g : OptionsResolver)
    (hf : HurlFile) (fn : String) (c : Client) (ro : RunnerOptions)
    (co : ClientOptions) (lg : Logger) (w : World) (hr : HurlResult) (cl2 : Client)
    (wf : World) (trf : List Event)
    (h : run exec g hf fn c ro co lg w = some (hr, cl2, wf, trf)) :
    ∀ tr₁ r t tr₂, trf = tr₁ ++ Event.failFastChecked r t :: tr₂ →
      t = !r.errors.isEmpty ∧
      (∃ info, (execEvents tr₁).getLast? = some info ∧
        info.results.getLast? = some r) ∧
      (t = true → tr₂ = [] ∧
        hr.entries = ((execEvents tr₁).map ExecInfo.results).flatten) := by
  obtain ⟨acc, vfin, c2, w2, tr, hrun, hout⟩ := run_some_elim _ _ _ _ _ _ _ _ _ _ h
  simp only [Prod.mk.injEq] at hout
  obtain ⟨rfl, rfl, rfl, rfl⟩ := hout
  intro tr₁ r t tr₂ hsplit
  have hff := runEntries_ffHonest exec g ro co lg _ _ _ _ _ _ _ _ _ hrun
    tr₁ r t tr₂ hsplit
  refine ⟨hff.1, hff.2, ?_⟩
  intro ht
  subst ht
  have hterm := runEntries_stopsTerminal exec g ro co lg _ _ _ _ _ _ _ _ _ hrun
    tr₁ (Event.failFastChecked r true) tr₂ hsplit rfl
  subst hterm
  refine ⟨rfl, ?_⟩
  have hres := runEntries_results exec g ro co lg _ _ _ _ _ _ _ _ _ hrun
  rw [hsplit] at hres
  simpa [execEvents_append, execEvents] using hres

/-- C7: the run result's outcome list is exactly the concatenation, in invocation
order, of each executed entry's outcome sequence (no outcome reordered, dropped or
duplicated), and the executed entry indices are consecutive script indices
starting at 0 — script order. -/
theorem run_outcomes_in_order (exec : Executor) (g : OptionsResolver)
    (hf : HurlFile) (fn : String) (c : Client) (ro : RunnerOptions)
    (co : ClientOptions) (lg : Logger) (w : World) (hr : HurlResult) (cl2 : Client)
    (wf : World) (trf : List Event)
    (h : run exec g hf fn c ro co lg w = some (hr, cl2, wf, trf)) :
    hr.entries = ((execEvents trf).map ExecInfo.results).flatten ∧
    (execEvents trf).map ExecInfo.idx = List.range (execEvents trf).length := by
  obtain ⟨acc, vfin, c2, w2, tr, hrun, hout⟩ := run_some_elim _ _ _ _ _ _ _ _ _ _ h
  simp only [Prod.mk.injEq] at hout
  obtain ⟨rfl, rfl, rfl, rfl⟩ := hout
  refine ⟨by simpa using runEntries_results exec g ro co lg _ _ _ _ _ _ _ _ _ hrun, ?_⟩
  have hfst : ((hf.entries.take (ro.to_entry.getD hf.entries.length)).enum).map
      Prod.fst =
      List.range' 0
        ((hf.entries.take (ro.to_entry.getD hf.entries.length)).enum).length := by
    rw [List.enum_map_fst, List.enum_length]
    exact List.range_eq_range' _
  have hrange := runEntries_range exec g ro co lg _ 0 _ _ _ _ _ _ _ _ hrun hfst
  rw [List.range_eq_range' _]
  exact hrange

/-- C8: the per-entry scoped logger keeps the ambient logger's color, filename and
content, and replaces its verbosity by the resolved per-entry verbosity, which
defaults to the run's base verbosity when the entry declares no override; every
debug log of a run goes through the scoped logger of one of the script's
entries. -/
theorem run_scoped_logger_settings :
    (∀ (lg : Logger) (e : Entry) (co : ClientOptions),
      (scopedLogger lg e co).color = lg.color ∧
      (scopedLogger lg e co).filename = lg.filename ∧
      (scopedLogger lg e co).content = lg.content ∧
      (scopedLogger lg e co).verbose = (get_entry_verbosity e co.verbosity).isSome) ∧
    (∀ (lg : Logger) (e : Entry) (co : ClientOptions), e.verbosityOverride = none →
      (scopedLogger lg e co).verbose = co.verbosity.isSome) ∧
    (∀ (exec : Executor) (g : OptionsResolver) (hf : HurlFile) (fn : String)
        (c : Client) (ro : RunnerOptions) (co : ClientOptions) (lg : Logger)
        (w : World) (hr : HurlResult) (cl2 : Client) (wf : World) (trf : List Event),
      run exec g hf fn c ro co lg w = some (hr, cl2, wf, trf) →
      ∀ lgx m, Event.logDebug lgx m ∈ trf →
        ∃ e2, e2 ∈ hf.entries ∧ lgx = scopedLogger lg e2 co) := by
  refine ⟨fun lg e co => ⟨rfl, rfl, rfl, rfl⟩, ?_, ?_⟩
  · intro lg e co hov
    simp [scopedLogger, get_entry_verbosity, hov, Logger.new]
  · intro exec g hf fn c ro co lg w hr cl2 wf trf h lgx m hmem
    obtain ⟨acc, vfin, c2, w2, tr, hrun, hout⟩ := run_some_elim _ _ _ _ _ _ _ _ _ _ h
    simp only [Prod.mk.injEq] at hout
    obtain ⟨rfl, rfl, rfl, rfl⟩ := hout
    obtain ⟨e2, he2, hlg⟩ := runEntries_logDebug exec g ro co lg _ _ _ _ _ _ _ _ _
      hrun lgx m hmem
    rw [List.enum_map_snd] at he2
    exact ⟨e2, List.take_subset _ _ he2, hlg⟩

/-- C9: every executor invocation is immediately followed, unconditionally and
before any stop decision, by the reporting of every error of every outcome of
that entry through the entry's scoped logger — outcomes in order and, within one
outcome, its errors in order — each outcome being recorded right after its errors
are reported. -/
theorem run_errors_reported_per_outcome (exec : Executor) (g : OptionsResolver)
    (hf : HurlFile) (fn : String) (c : Client) (ro : RunnerOptions)
    (co : ClientOptions) (lg : Logger) (w : World) (hr : HurlResult) (cl2 : Client)
    (wf : World) (trf : List Event)
    (h : run exec g hf fn c ro co lg w = some (hr, cl2, wf, trf)) :
    ∀ tr₁ i e vi rs vo tr₂, trf = tr₁ ++ Event.execCall i e vi rs vo :: tr₂ →
      ∃ rest, tr₂ =
        ((rs.map (fun r =>
          r.errors.map (Event.logErrorRich (scopedLogger lg e co)) ++
            [Event.outcomeRecorded r])).flatten) ++ rest := by
  obtain ⟨acc, vfin, c2, w2, tr, hrun, hout⟩ := run_some_elim _ _ _ _ _ _ _ _ _ _ h
  simp only [Prod.mk.injEq] at hout
  obtain ⟨rfl, rfl, rfl, rfl⟩ := hout
  intro tr₁ i e vi rs vo tr₂ hsplit
  obtain ⟨rest, hrest⟩ := runEntries_execFollowed exec g ro co lg _ _ _ _ _ _ _ _ _
    hrun tr₁ i e vi rs vo tr₂ hsplit
  exact ⟨rest, by simpa [recordEvents] using hrest⟩

/-- C10: with failFast set, the loop unwraps the last element of the executor's
outcome sequence, so an executor returning an empty sequence makes the run panic;
under the interface precondition that every invocation returns at least one
outcome the panic is unreachable, and with failFast unset the conjunction
short-circuits, no panic is possible, and an empty outcome sequence merely
contributes no outcomes. -/
theorem run_fail_fast_empty_outcomes_panic :
    (∀ (exec : Executor) (g : OptionsResolver) (hf : HurlFile) (fn : String)
        (c : Client) (ro : RunnerOptions) (co : ClientOptions) (lg : Logger)
        (w : World), ro.fail_fast = false →
      (run exec g hf fn c ro co lg w).isSome = true) ∧
    (∀ (exec : Executor) (g : OptionsResolver) (hf : HurlFile) (fn : String)
        (c : Client) (ro : RunnerOptions) (co : ClientOptions) (lg : Logger)
        (w : World),
      (∀ e c2 v co2 lg2 w2, (exec e c2 v ro co2 lg2 w2).1 ≠ []) →
      (run exec g hf fn c ro co lg w).isSome = true) ∧
    run wExecEmpty wRes wHf "f" wCl wRoFF wCo wLg 0 = none ∧
    (run wExecEmpty wRes wHf "f" wCl wRo wCo wLg 0).map
      (fun out => out.1.entries) = some [] := by
  refine ⟨fun exec g hf fn c ro co lg w hff =>
      run_isSome_no_ff exec g hf fn c ro co lg w hff,
    fun exec g hf fn c ro co lg w hne =>
      run_isSome_nonempty exec g hf fn c ro co lg w hne, ?_, ?_⟩
  · rfl
  · rfl

end Hurl

/-! ## Witness instantiations of the claim theorems -/

namespace Hurl

theorem run_success_iff_no_error_witness :
    ((w1hr.success = true ↔ ∀ r ∈ w1hr.entries, r.errors = []) ∧
      (wHf.entries = [] → w1hr.entries = [] ∧ w1hr.success = true)) ∧
    (wEhr.entries = [] ∧ wEhr.success = true) :=
  ⟨run_success_iff_no_error wExec wRes wHf "f" wCl wRo wCo wLg 0 w1hr wCl 2 w1tr
      rfl,
   (run_success_iff_no_error wExec wRes wHfEmpty "f" wCl wRo wCo wLg 0 wEhr wCl 0
      [] rfl).2 rfl⟩

theorem run_to_entry_bound_witness :
    (execEvents w2tr).length ≤ 1 ∧ (execEvents w2tr).length = 1 :=
  ⟨(run_to_entry_bound wExec wRes wHf "f" wCl wRoTo1 wCo wLg 0 1 w2hr wCl 1 w2tr
      rfl rfl).1,
   (run_to_entry_bound wExec wRes wHf "f" wCl wRoTo1 wCo wLg 0 1 w2hr wCl 1 w2tr
      rfl rfl).2.2.1 (by decide) (by decide)⟩

theorem run_variables_copied_and_threaded_witness :
    List.lookup "a" (copyVariables [("a", "1")]) = List.lookup "a" [("a", "1")] ∧
      List.Chain' (fun a b => b.varsIn = a.varsOut) (execEvents w1tr) :=
  ⟨run_variables_copied_and_threaded.1 [("a", "1")] "a" (by decide),
   (run_variables_copied_and_threaded.2 wExec wRes wHf "f" wCl wRo wCo wLg 0
      w1hr wCl 2 w1tr rfl).2⟩

theorem run_pre_hook_stop_witness :
    w3hr.entries = [] ∧ w3hr.success = true ∧
      w3tr = [Event.preHookCall wEntry0 true] :=
  (run_pre_hook_stop wExec wRes wHf "f" wCl wRoPre wCo wLg 0 w3hr wCl 0 w3tr
      rfl).2 (fun _ w => (true, w)) wEntry0 [wEntry1] rfl rfl rfl rfl

theorem run_post_hook_stop_witness :
    w4hr.entries = ((execEvents w4tr1).map ExecInfo.results).flatten :=
  (run_post_hook_stop wExec wRes wHf "f" wCl wRoPost wCo wLg 0 w4hr wCl 1 w4tr
      rfl w4tr1 [] rfl).2.2

theorem run_fail_fast_last_outcome_witness :
    (true : Bool) = !(⟨["boom"], 0⟩ : EntryResult).errors.isEmpty ∧
      w5hr.entries = ((execEvents w5tr1).map ExecInfo.results).flatten :=
  ⟨(run_fail_fast_last_outcome wExecErr wRes wHf "f" wCl wRoFF wCo wLg 0 w5hr wCl
      0 w5tr rfl w5tr1 ⟨["boom"], 0⟩ true [] rfl).1,
   ((run_fail_fast_last_outcome wExecErr wRes wHf "f" wCl wRoFF wCo wLg 0 w5hr wCl
      0 w5tr rfl w5tr1 ⟨["boom"], 0⟩ true [] rfl).2.2 rfl).2⟩

theorem run_outcomes_in_order_witness :
    w1hr.entries = ((execEvents w1tr).map ExecInfo.results).flatten ∧
      (execEvents w1tr).map ExecInfo.idx = List.range (execEvents w1tr).length :=
  run_outcomes_in_order wExec wRes wHf "f" wCl wRo wCo wLg 0 w1hr wCl 2 w1tr rfl

theorem run_scoped_logger_settings_witness :
    (scopedLogger wLg wEntry0 wCo).verbose = wCo.verbosity.isSome :=
  run_scoped_logger_settings.2.1 wLg wEntry0 wCo rfl

theorem run_errors_reported_per_outcome_witness :
    ∃ rest, w9tr2 =
      ((([⟨["boom"], 0⟩] : List EntryResult).map (fun r =>
        r.errors.map (Event.logErrorRich (scopedLogger wLg wEntry0 wCo)) ++
          [Event.outcomeRecorded r])).flatten) ++ rest :=
  run_errors_reported_per_outcome wExecErr wRes wHf "f" wCl wRoFF wCo wLg 0 w5hr
    wCl 0 w5tr rfl w9tr1 0 wEntry0 [] [⟨["boom"], 0⟩] [] w9tr2 rfl

theorem run_fail_fast_empty_outcomes_panic_witness :
    (run wExec wRes wHf "f" wCl wRo wCo wLg 0).isSome = true :=
  run_fail_fast_empty_outcomes_panic.1 wExec wRes wHf "f" wCl wRo wCo wLg 0 rfl

end Hurl
